import Mathlib

/-!
# netmon: a shallow embedding of `src/netmon.c`

Bytes (`char`) and `uint64_t` values are natural numbers; every operation that
can leave the 64-bit range in C is reduced modulo `2 ^ 64` explicitly.  Byte
spans (`lnm_byte_sequence`) are lists of bytes.  A two-slot C array `a[2]` is
a pair: `a.1` is `a[0]` and `a.2` is `a[1]`.  The statistics source is the
list of bytes that remain to be read from the stream, or `none` when `fopen`
returns `NULL`.
-/

namespace Netmon

/-! ## Types and constants -/

/-- Reduction of a natural number to the range of `uint64_t`. -/
def u64 (n : Nat) : Nat := n % 2 ^ 64

/-- The constant `0xFFFFFFFFFFFFFFFFULL`. -/
def U64_MAX : Nat := 0xFFFFFFFFFFFFFFFF

/-- The struct `lnm_state` (lines 26-31). -/
structure lnm_state where
  if_name : List Nat
  rx : Nat × Nat
  tx : Nat × Nat
  d_rx : Nat × Nat
  d_tx : Nat × Nat
  update_succeeded : Bool × Bool
deriving DecidableEq, Repr

/-- A state all of whose counters are values of `uint64_t`. -/
def lnm_state.inRange (s : lnm_state) : Prop :=
  s.rx.1 < 2 ^ 64 ∧ s.rx.2 < 2 ^ 64 ∧ s.tx.1 < 2 ^ 64 ∧ s.tx.2 < 2 ^ 64 ∧
  s.d_rx.1 < 2 ^ 64 ∧ s.d_rx.2 < 2 ^ 64 ∧ s.d_tx.1 < 2 ^ 64 ∧ s.d_tx.2 < 2 ^ 64

instance (s : lnm_state) : Decidable s.inRange := by
  unfold lnm_state.inRange; infer_instance

/-- The enumerator `lnm_line_buf_size` (line 34). -/
def lnm_line_buf_size : Nat := 2048

/-! ## The C library calls the program relies on -/

/-- The characters `fgets` stores when at most `room` of them fit: it stops
after a newline, at the end of the stream, or when the room is used up.
Returns the characters stored and the rest of the stream. -/
def fgets_loop : List Nat → Nat → List Nat × List Nat
  | [], _ => ([], [])
  | c :: stream, room =>
    if room = 0 then ([], c :: stream)
    else if c = 10 then ([c], stream)
    else (c :: (fgets_loop stream (room - 1)).1, (fgets_loop stream (room - 1)).2)

/-- The call `fgets(buf, n, stream)`: `none` is the `NULL` result at the end of
the stream; otherwise the characters stored in front of the terminating NUL,
and the rest of the stream. -/
def fgets (n : Nat) (stream : List Nat) : Option (List Nat × List Nat) :=
  match stream with
  | [] => none
  | c :: rest => some (fgets_loop (c :: rest) (n - 1))

/-- The call `strlen(buf)` on a buffer holding `chars` followed by a NUL: the
bytes in front of the first NUL. -/
def strlen (chars : List Nat) : Nat := (chars.takeWhile (fun c => c ≠ 0)).length

/-! ## State-update-related functions -/

/-- The loop of `lnm_skip_line` (lines 83-96), bounded by `fuel` rounds;
`none` means the bound was reached. -/
def lnm_skip_line_loop : Nat → List Nat → Option (Bool × List Nat)
  | 0, _ => none
  | fuel + 1, stream =>
    match fgets lnm_line_buf_size stream with
    | none => some (false, stream)
    | some (line_buf, rest) =>
      if strlen line_buf = lnm_line_buf_size - 1 ∧
          line_buf.getD (lnm_line_buf_size - 1 - 1) 0 ≠ 10 then
        lnm_skip_line_loop fuel rest
      else some (true, rest)

/-- The function `lnm_skip_line` (lines 78-99): the result and the stream that
is left.  Every round consumes a byte, so `stream.length + 1` rounds suffice. -/
def lnm_skip_line (stream : List Nat) : Option (Bool × List Nat) :=
  lnm_skip_line_loop (stream.length + 1) stream

/-- The function `lnm_read_line` (lines 101-104): `none` when `fgets` returns
`NULL`, otherwise the line buffer and the stream that is left. -/
def lnm_read_line (stream : List Nat) : Option (List Nat × List Nat) :=
  fgets lnm_line_buf_size stream

/-- The test `(c == ' ') || (c == '\t')` of `lnm_read_word`. -/
def is_blank (c : Nat) : Bool := c == 32 || c == 9

/-- The function `lnm_read_word` (lines 106-131): the word returned and the
shrunk source buffer. -/
def lnm_read_word (buf : List Nat) : List Nat × List Nat :=
  if buf.length = 0 then ([], buf)
  else
    let skipped := buf.dropWhile is_blank
    (skipped.takeWhile (fun c => !is_blank c), skipped.dropWhile (fun c => !is_blank c))

/-- The loop of `lnm_convert_to_u64` (lines 142-149) over the bytes from the
last to the first, with the accumulator `*dst` and the multiplier `m`. -/
def lnm_convert_to_u64_loop : List Nat → Nat → Nat → Option Nat
  | [], dst, _ => some dst
  | c :: cs, dst, m =>
    if !(c ≥ 48 && c ≤ 57) then none
    else lnm_convert_to_u64_loop cs (u64 (dst + u64 (u64 (c - 48) * m))) (u64 (m * 10))

/-- The function `lnm_convert_to_u64` (lines 133-152): `none` is the result
`false`, `some v` is the result `true` with `*dst = v`. -/
def lnm_convert_to_u64 (src : List Nat) : Option Nat :=
  if src.length = 0 then none
  else lnm_convert_to_u64_loop src.reverse 0 1

/-- The inner loop of `lnm_update_state` (lines 191-193): `n` words are read
from `seq` and dropped. -/
def lnm_update_state_skip : Nat → List Nat → List Nat
  | 0, seq => seq
  | n + 1, seq => lnm_update_state_skip n (lnm_read_word seq).2

/-- The row loop of `lnm_update_state` (lines 174-198), bounded by `fuel`
rounds: the pair `(rx_val_str, tx_val_str)` when the loop ends; `none` means
the bound was reached. -/
def lnm_update_state_rows (if_name : List Nat) :
    Nat → List Nat → Option (List Nat × List Nat)
  | 0, _ => none
  | fuel + 1, dev =>
    match lnm_read_line dev with
    | none => some ([], [])
    | some (line_buf, rest) =>
      let seq := line_buf.takeWhile (fun c => c ≠ 0)
      let word := (lnm_read_word seq).1
      let seq := (lnm_read_word seq).2
      if word.length = 0 ∨ word.getD (word.length - 1) 0 ≠ 58 then
        lnm_update_state_rows if_name fuel rest
      else if word.length - 1 ≠ if_name.length ∨
          word.take if_name.length ≠ if_name then
        lnm_update_state_rows if_name fuel rest
      else
        let rx_val_str := (lnm_read_word seq).1
        let seq := (lnm_read_word seq).2
        let seq := lnm_update_state_skip 7 seq
        let tx_val_str := (lnm_read_word seq).1
        some (rx_val_str, tx_val_str)

/-- The reading part of `lnm_update_state` (lines 156-202): `some (rx, tx)`
when both counters were read and converted, which is when the function sets
`update_succeeded = true`; `none` on every other path.  The bounds of the two
loops are never reached (`lnm_skip_line_total`, `lnm_update_state_rows_total`),
so `none` always stands for a path on which `update_succeeded` stays false. -/
def lnm_update_state_read (dev : Option (List Nat)) (if_name : List Nat) :
    Option (Nat × Nat) :=
  match dev with
  | none => none
  | some dev =>
    match lnm_skip_line dev with
    | some (true, dev) =>
      match lnm_skip_line dev with
      | some (true, dev) =>
        match lnm_update_state_rows if_name (dev.length + 1) dev with
        | some (rx_val_str, tx_val_str) =>
          match lnm_convert_to_u64 rx_val_str with
          | some rx =>
            match lnm_convert_to_u64 tx_val_str with
            | some tx => some (rx, tx)
            | none => none
          | none => none
        | none => none
      | _ => none
    | _ => none

/-- The raw delta of lines 211-218: `cur - prev` when `cur >= prev`, and
`cur + (0xFFFFFFFFFFFFFFFF - prev)` otherwise, in `uint64_t` arithmetic. -/
def raw_delta (prev cur : Nat) : Nat :=
  if cur ≥ prev then u64 (cur - prev) else u64 (cur + u64 (U64_MAX - prev))

/-- The damping of lines 220-221: `(d >> 1) + (uint64_t)(d != 0)`. -/
def damp (d : Nat) : Nat := u64 ((d >>> 1) + (if d ≠ 0 then 1 else 0))

/-- The function `lnm_update_state` (lines 154-237) on the statistics source
`dev` (`none` when it cannot be opened). -/
def lnm_update_state (dev : Option (List Nat)) (state : lnm_state) : lnm_state :=
  match lnm_update_state_read dev state.if_name with
  | some (rx, tx) =>
    let rx0 := state.rx.2
    let rx1 := rx
    let tx0 := state.tx.2
    let tx1 := tx
    let d_rx := damp (raw_delta rx0 rx1)
    let d_tx := damp (raw_delta tx0 tx1)
    { if_name := state.if_name
      rx := (rx0, rx1)
      tx := (tx0, tx1)
      d_rx := (state.d_rx.2, d_rx)
      d_tx := (state.d_tx.2, d_tx)
      update_succeeded := (state.update_succeeded.2, true) }
  | none =>
    { state with update_succeeded := (state.update_succeeded.2, false) }

/-! ## Output functions -/

/-- The table `prefixes` of `lnm_print_speed` (lines 245-246):
`B K M G T P E Z Y`. -/
def prefixes : List Nat := [66, 75, 77, 71, 84, 80, 69, 90, 89]

/-- The loop of `lnm_print_speed` (lines 249-262) over the prefixes that are
left, with the current `x` and `c`; `dst` is the destination as it was passed
in, returned untouched when the loop runs out of prefixes. -/
def lnm_print_speed_loop (dst : List Nat) : List Nat → Nat → Nat → List Nat
  | [], _, _ => dst
  | p :: rest, x, c =>
    if x < 10 then
      (((dst.set 0 ((48 + x) % 256)).set 1 46).set 2 c).set 3 p
    else
      let x_r := ((x &&& 0x3FF) % 2 ^ 32) % 2 ^ 16
      let c := if x_r = 0 then 48 else (49 + x_r / 114) % 256
      lnm_print_speed_loop dst rest (x >>> 10) c

/-- The function `lnm_print_speed` (lines 243-263): the bytes at `dst` after
the call (`dst` has at least four bytes). -/
def lnm_print_speed (dst : List Nat) (x : Nat) : List Nat :=
  lnm_print_speed_loop dst prefixes x 48

/-- The condition `must_print` of `lnm_print_state` (lines 267-271). -/
def must_print (state : lnm_state) : Bool :=
  (!state.update_succeeded.2) ||
  (state.update_succeeded.1 != state.update_succeeded.2) ||
  (state.d_rx.1 != state.d_rx.2) ||
  (state.d_tx.1 != state.d_tx.2)

/-- The buffer `buf` of `lnm_print_state` after lines 277-291: the two speed
tokens, the two glyphs, the space, the newline and the final NUL. -/
def lnm_print_state_buf (state : lnm_state) : List Nat :=
  let buf := List.replicate 17 0
  let buf := lnm_print_speed buf state.d_rx.2
  let buf := buf.take 8 ++ lnm_print_speed (buf.drop 8) state.d_tx.2
  let buf := buf.set 4 0xE2
  let buf := buf.set 5 0x96
  let buf := buf.set 6 0xBC
  let buf := buf.set 7 32
  let buf := buf.set 12 0xE2
  let buf := buf.set 13 0x96
  let buf := buf.set 14 0xB2
  let buf := buf.set 15 10
  buf.set 16 0

/-- The call `fputs(buf, stdout)`: the bytes in front of the first NUL. -/
def fputs (buf : List Nat) : List Nat := buf.takeWhile (fun c => c ≠ 0)

/-- The function `lnm_print_state` (lines 265-300): the bytes written to the
standard output, `none` when the function returns without writing. -/
def lnm_print_state (state : lnm_state) : Option (List Nat) :=
  if !must_print state then none
  else
    let buf := lnm_print_state_buf state
    let buf := if !state.update_succeeded.2 then (buf.set 3 63).set 11 63 else buf
    some (fputs buf)

/-! ## Program entry point -/

/-- The state `lnm_state state = {}` of `main` with `if_name` set from the
command line (lines 334, 345-346). -/
def lnm_state_init (if_name : List Nat) : lnm_state :=
  { if_name := if_name
    rx := (0, 0)
    tx := (0, 0)
    d_rx := (0, 0)
    d_tx := (0, 0)
    update_succeeded := (false, false) }

/-- The sampling cycles of the loop of `main` (lines 361-362), one for each
statistics source in the list: the state is updated, then printed.  The result
lists what each cycle wrote. -/
def main_cycles : lnm_state → List (Option (List Nat)) → List (Option (List Nat))
  | _, [] => []
  | state, dev :: devs =>
    lnm_print_state (lnm_update_state dev state) ::
      main_cycles (lnm_update_state dev state) devs

/-- The loop of `main` (lines 355-366): the start-up update on `dev0`, then
the cycles on `devs`. -/
def main_loop (if_name : List Nat) (dev0 : Option (List Nat))
    (devs : List (Option (List Nat))) : List (Option (List Nat)) :=
  main_cycles (lnm_update_state dev0 (lnm_state_init if_name)) devs

/-- The states reachable from the initial state by updates. -/
def lnm_state_after (if_name : List Nat) (devs : List (Option (List Nat))) : lnm_state :=
  devs.foldl (fun state dev => lnm_update_state dev state) (lnm_state_init if_name)

/-! ## The formulas of the specification and sample inputs -/

/-- The raw delta as the specification words it, over the natural numbers:
`c - p` when `c >= p`, and `c + (2^64 - 1 - p)` otherwise. -/
def spec_delta (p c : Nat) : Nat :=
  if c ≥ p then c - p else c + (2 ^ 64 - 1 - p)

/-- The damping as the specification words it, over the natural numbers:
`(r >> 1) + (1 if r != 0 else 0)`. -/
def spec_smooth (r : Nat) : Nat := (r >>> 1) + (if r ≠ 0 then 1 else 0)

/-- The bytes of an ASCII string literal. -/
def bytes (s : String) : List Nat := s.toList.map Char.toNat

/-- A statistics source in the layout of `/proc/net/dev`: two header lines, a
row for `lo` and a row for `eth0` whose receive and transmit byte counters are
the given tokens. -/
def sample_dev (rx tx : String) : List Nat :=
  bytes ("Inter-|   Receive\n face |bytes\n    lo: 5 0 0 0 0 0 0 0 5 0\n  eth0: " ++
    rx ++ " 1 2 3 4 5 6 7 " ++ tx ++ " 0\n")

/-- A state of the monitor of `eth0` whose receive counter is six below the
top of the 64-bit range. -/
def sample_state : lnm_state :=
  { if_name := bytes "eth0"
    rx := (7, 2 ^ 64 - 1 - 5)
    tx := (1, 5)
    d_rx := (3, 4)
    d_tx := (5, 6)
    update_succeeded := (true, false) }

/-- The invariant of the update step: the current smoothed deltas are the
damped raw deltas of the stored sample pairs. -/
def delta_inv (s : lnm_state) : Prop :=
  s.d_rx.2 = damp (raw_delta s.rx.1 s.rx.2) ∧ s.d_tx.2 = damp (raw_delta s.tx.1 s.tx.2)

/-- The line written while the counters are zero and the last update failed:
`0.0?`, the receive glyph, a space, `0.0?`, the transmit glyph, a newline. -/
def failure_line : List Nat :=
  [48, 46, 48, 63, 0xE2, 0x96, 0xBC, 32, 48, 46, 48, 63, 0xE2, 0x96, 0xB2, 10]

/-! ## Definitions for the word scanner and the integer parser -/

/-- The results of the first `n` calls of `lnm_read_word` on one cursor, which
starts as `buf` and is shrunk by every call. -/
def lnm_read_word_calls : Nat → List Nat → List (List Nat)
  | 0, _ => []
  | n + 1, buf => (lnm_read_word buf).1 :: lnm_read_word_calls n (lnm_read_word buf).2

/-- The words of a span as the specification words them: the non-empty pieces
obtained by splitting the span at space and tab bytes. -/
def spec_words (s : List Nat) : List (List Nat) :=
  (s.splitOnP is_blank).filter (fun t => !t.isEmpty)

/-- The natural number a span of ASCII decimal digits denotes in base 10, read
most-significant digit first. -/
def spec_decimal (s : List Nat) : Nat := s.foldl (fun n c => 10 * n + (c - 48)) 0

/-- The value of a list of ASCII decimal digits read least-significant digit
first, the order in which the loop of `lnm_convert_to_u64` visits them. -/
def decimal_rev (cs : List Nat) : Nat := cs.foldr (fun c n => 10 * n + (c - 48)) 0

/-! ## Definitions for the statistics table reader -/

/-- The part of `lnm_update_state` that follows the header (lines 169-202) on
the stream `dev` that the two calls of `lnm_skip_line` left: the row loop and
the two conversions. -/
def lnm_update_state_scan (if_name : List Nat) (dev : List Nat) : Option (Nat × Nat) :=
  match lnm_update_state_rows if_name (dev.length + 1) dev with
  | some (rx_val_str, tx_val_str) =>
    match lnm_convert_to_u64 rx_val_str with
    | some rx =>
      match lnm_convert_to_u64 tx_val_str with
      | some tx => some (rx, tx)
      | none => none
    | none => none
  | none => none

/-- A data line as the reader receives it from `fgets`: not empty, at most
2047 bytes, free of NUL bytes, with no newline in front of its last byte. -/
def data_line (l : List Nat) : Prop :=
  l ≠ [] ∧ l.length ≤ 2047 ∧ 0 ∉ l ∧ 10 ∉ l.dropLast

instance (l : List Nat) : Decidable (data_line l) := by
  unfold data_line; infer_instance

/-- A sequence of data lines: every line but the last ends with its newline
(the last one may be cut short by the end of the source). -/
def data_lines : List (List Nat) → Prop
  | [] => True
  | l :: ls => data_line l ∧ (l.getLast? = some 10 ∨ ls = []) ∧ data_lines ls

/-- Decision procedure for `data_lines`. -/
def data_lines_dec : (ls : List (List Nat)) → Decidable (data_lines ls)
  | [] => isTrue trivial
  | l :: ls =>
    match data_lines_dec ls with
    | isTrue h =>
      if h1 : data_line l ∧ (l.getLast? = some 10 ∨ ls = []) then isTrue ⟨h1.1, h1.2, h⟩
      else isFalse (fun h2 => h1 ⟨h2.1, h2.2.1⟩)
    | isFalse h => isFalse (fun h2 => h h2.2.2)

instance (ls : List (List Nat)) : Decidable (data_lines ls) := data_lines_dec ls

/-- The row test as the specification words it: the first token of the line
ends with a colon and, with that colon stripped, equals the interface name. -/
def spec_row_matches (if_name line : List Nat) : Bool :=
  match (spec_words line).head? with
  | some key => key.getLast? == some 58 && key.dropLast == if_name
  | none => false

/-- The reader as the specification words it, on the data lines: the first
matching line is taken, its 1st token after the name is parsed as `rx` and its
9th token after the name as `tx`; a missing row or token, or a token that does
not parse, is a failure. -/
def spec_read (if_name : List Nat) (lines : List (List Nat)) : Option (Nat × Nat) :=
  match lines.find? (spec_row_matches if_name) with
  | none => none
  | some line =>
    match (spec_words line)[1]?, (spec_words line)[9]? with
    | some rx_tok, some tx_tok =>
      match lnm_convert_to_u64 rx_tok, lnm_convert_to_u64 tx_tok with
      | some rx, some tx => some (rx, tx)
      | _, _ => none
    | _, _ => none

/-- Two data lines in the layout of `/proc/net/dev`: a row for `lo` and a row
for `eth0` with the counters 10 and 20. -/
def sample_lines : List (List Nat) :=
  [bytes "    lo: 5 0 0 0 0 0 0 0 5 0\n", bytes "  eth0: 10 1 2 3 4 5 6 7 20 0\n"]

/-- A logical data line longer than the line buffer: 2047 bytes `x` directly
followed by `eth0: 1 0 0 0 0 0 0 0 2 0` and the newline. -/
def overlong_line : List Nat :=
  List.replicate 2047 120 ++ bytes "eth0: 1 0 0 0 0 0 0 0 2 0\n"

/-- A statistics source whose only data line is `overlong_line`. -/
def overlong_dev : List Nat :=
  bytes "Inter-|   Receive" ++ 10 :: (bytes " face |bytes" ++ 10 :: overlong_line)

/-! ## Definitions for the arithmetic bounds and the displayed value -/

/-- The ranges that hold in every reachable state: the raw counters are
values of `uint64_t` and the smoothed deltas are at most `2^63`. -/
def range_inv (s : lnm_state) : Prop :=
  s.rx.1 < 2 ^ 64 ∧ s.rx.2 < 2 ^ 64 ∧ s.tx.1 < 2 ^ 64 ∧ s.tx.2 < 2 ^ 64 ∧
  s.d_rx.1 ≤ 2 ^ 63 ∧ s.d_rx.2 ≤ 2 ^ 63 ∧ s.d_tx.1 ≤ 2 ^ 63 ∧ s.d_tx.2 ≤ 2 ^ 63

/-- The rational a token `D.FP` displays: `(D + F/10) * 1024^k`, where `k` is
the index of the prefix letter `P` in `prefixes`. -/
def token_value (tok : List Nat) : ℚ :=
  (((tok.getD 0 0 - 48 : Nat) : ℚ) + ((tok.getD 2 0 - 48 : Nat) : ℚ) / 10) *
    1024 ^ (prefixes.indexOf (tok.getD 3 0))

/-- The fractional digit of the formatter as a number: 0 when the low ten bits
are 0, and `1 + low10 / 114` otherwise. -/
def frac_digit (low10 : Nat) : Nat := if low10 = 0 then 0 else 1 + low10 / 114

/-- Ten times the value the formatter displays for `x` when it stops at the
prefix index `k`. -/
def tenths (x k : Nat) : Nat :=
  (10 * (x / 1024 ^ k) + (if k = 0 then 0 else frac_digit (x / 1024 ^ (k - 1) % 1024))) *
    1024 ^ k

/-- The stream of a sequence of logical lines, given without their
terminators: every line is followed by its newline. -/
def lines_stream (lines : List (List Nat)) : List Nat :=
  (lines.map (fun l => l ++ [10])).flatten

/-- The two header lines of the sample sources. -/
def sample_header : List Nat := bytes "Inter-|   Receive\n face |bytes\n"

/-- A row of `eth0` whose 9th token after the name is the last of the line. -/
def short_row : List Nat := bytes "eth0: 1 0 0 0 0 0 0 0 2"

/-- A row of `eth0` with a NUL byte directly behind its 9th token after the
name. -/
def nul_row : List Nat := bytes "eth0: 1 0 0 0 0 0 0 0 2" ++ 0 :: bytes " 0"

/-- A line that holds the key `eth0:` alone, in front of a full row of `eth0`. -/
def bare_key_rows : List (List Nat) :=
  [bytes "eth0:", bytes "eth0: 1 0 0 0 0 0 0 0 2 0"]

/-! ## Totality of the bounded loops -/

theorem fgets_loop_length (stream : List Nat) (room : Nat) :
    (fgets_loop stream room).1.length + (fgets_loop stream room).2.length = stream.length := by
  induction stream generalizing room with
  | nil => simp [fgets_loop]
  | cons c stream ih =>
    unfold fgets_loop
    by_cases h0 : room = 0
    · simp [h0]
    · by_cases h1 : c = 10
      · simp [h0, h1]; omega
      · simp only [h0, h1, if_false, List.length_cons]
        have := ih (room - 1)
        omega

theorem fgets_loop_pos (c : Nat) (stream : List Nat) (room : Nat) (h : 0 < room) :
    0 < (fgets_loop (c :: stream) room).1.length := by
  unfold fgets_loop
  have h0 : room ≠ 0 := by omega
  by_cases h1 : c = 10 <;> simp [h0, h1]

theorem fgets_rest_length (stream line_buf rest : List Nat)
    (h : fgets lnm_line_buf_size stream = some (line_buf, rest)) :
    rest.length < stream.length := by
  cases stream with
  | nil => simp [fgets] at h
  | cons c stream =>
    simp only [fgets, Option.some.injEq] at h
    have h1 := fgets_loop_length (c :: stream) (lnm_line_buf_size - 1)
    have h2 := fgets_loop_pos c stream (lnm_line_buf_size - 1) (by decide)
    rw [h] at h1 h2
    simp only at h1 h2
    omega

theorem lnm_skip_line_loop_total (fuel : Nat) (stream : List Nat)
    (h : stream.length < fuel) : ∃ r, lnm_skip_line_loop fuel stream = some r := by
  induction fuel generalizing stream with
  | zero => omega
  | succ fuel ih =>
    unfold lnm_skip_line_loop
    cases hf : fgets lnm_line_buf_size stream with
    | none => exact ⟨_, rfl⟩
    | some r =>
      obtain ⟨line_buf, rest⟩ := r
      have hl := fgets_rest_length stream line_buf rest hf
      simp only
      split
      · exact ih rest (by omega)
      · exact ⟨_, rfl⟩

theorem lnm_skip_line_total (stream : List Nat) : ∃ r, lnm_skip_line stream = some r :=
  lnm_skip_line_loop_total _ _ (Nat.lt_succ_self _)

theorem lnm_update_state_rows_total (if_name : List Nat) (fuel : Nat) (dev : List Nat)
    (h : dev.length < fuel) : ∃ r, lnm_update_state_rows if_name fuel dev = some r := by
  induction fuel generalizing dev with
  | zero => omega
  | succ fuel ih =>
    unfold lnm_update_state_rows
    cases hf : lnm_read_line dev with
    | none => exact ⟨_, rfl⟩
    | some r =>
      obtain ⟨line_buf, rest⟩ := r
      have hl := fgets_rest_length dev line_buf rest hf
      simp only
      split
      · exact ih rest (by omega)
      · split
        · exact ih rest (by omega)
        · exact ⟨_, rfl⟩

/-! ## Arithmetic of the update step -/

theorem u64_lt (n : Nat) : u64 n < 2 ^ 64 := Nat.mod_lt _ (by decide)

theorem u64_of_lt {n : Nat} (h : n < 2 ^ 64) : u64 n = n := Nat.mod_eq_of_lt h

theorem raw_delta_lt (prev cur : Nat) : raw_delta prev cur < 2 ^ 64 := by
  unfold raw_delta; split <;> exact u64_lt _

theorem raw_delta_eq {prev cur : Nat} (hp : prev < 2 ^ 64) (hc : cur < 2 ^ 64) :
    raw_delta prev cur =
      if cur ≥ prev then cur - prev else cur + (2 ^ 64 - 1 - prev) := by
  unfold raw_delta u64 U64_MAX
  split
  · exact Nat.mod_eq_of_lt (by omega)
  · rw [Nat.mod_eq_of_lt (a := 0xFFFFFFFFFFFFFFFF - prev) (by omega)]
    rw [Nat.mod_eq_of_lt (by omega)]
    omega

theorem damp_eq {d : Nat} (hd : d < 2 ^ 64) :
    damp d = d / 2 + (if d ≠ 0 then 1 else 0) := by
  unfold damp u64
  rw [Nat.shiftRight_eq_div_pow]
  apply Nat.mod_eq_of_lt
  split <;> omega

theorem lnm_convert_to_u64_loop_lt (cs : List Nat) (dst m v : Nat) (hd : dst < 2 ^ 64)
    (h : lnm_convert_to_u64_loop cs dst m = some v) : v < 2 ^ 64 := by
  induction cs generalizing dst m with
  | nil =>
    simp only [lnm_convert_to_u64_loop, Option.some.injEq] at h
    omega
  | cons c cs ih =>
    unfold lnm_convert_to_u64_loop at h
    split at h
    · exact absurd h (by simp)
    · exact ih _ _ (u64_lt _) h

theorem lnm_convert_to_u64_lt (src : List Nat) (v : Nat)
    (h : lnm_convert_to_u64 src = some v) : v < 2 ^ 64 := by
  unfold lnm_convert_to_u64 at h
  split at h
  · exact absurd h (by simp)
  · exact lnm_convert_to_u64_loop_lt _ _ _ _ (by decide) h

theorem lnm_update_state_read_lt (dev : Option (List Nat)) (if_name : List Nat)
    (rx tx : Nat) (h : lnm_update_state_read dev if_name = some (rx, tx)) :
    rx < 2 ^ 64 ∧ tx < 2 ^ 64 := by
  unfold lnm_update_state_read at h
  split at h
  · cases h
  · split at h
    · split at h
      · split at h
        · split at h
          · split at h
            · rename_i h1 _ _ h2
              simp only [Option.some.injEq, Prod.mk.injEq] at h
              exact ⟨h.1 ▸ lnm_convert_to_u64_lt _ _ h1, h.2 ▸ lnm_convert_to_u64_lt _ _ h2⟩
            · cases h
          · cases h
        · cases h
      · cases h
    · cases h

/-! ## The update step -/

theorem spec_delta_eq {prev cur : Nat} (hp : prev < 2 ^ 64) (hc : cur < 2 ^ 64) :
    raw_delta prev cur = spec_delta prev cur := raw_delta_eq hp hc

theorem spec_smooth_eq {d : Nat} (hd : d < 2 ^ 64) : damp d = spec_smooth d := by
  rw [damp_eq hd, spec_smooth, Nat.shiftRight_eq_div_pow]

theorem spec_delta_lt {prev cur : Nat} (hp : prev < 2 ^ 64) (hc : cur < 2 ^ 64) :
    spec_delta prev cur < 2 ^ 64 := by
  rw [← spec_delta_eq hp hc]; exact raw_delta_lt _ _

/-- C1: for every monitor state with 64-bit counters and every successful read
yielding `(rx_new, tx_new)`, `lnm_update_state` shifts the raw counters, the
smoothed deltas and the success history, storing
`smooth (delta rx[1] rx_new)` and `smooth (delta tx[1] tx_new)` with the
formulas of the specification; `smooth` maps 0 to 0, 1 to 1 and 1024 to 513. -/
theorem lnm_update_state_success (state : lnm_state) (dev : Option (List Nat))
    (rx_new tx_new : Nat) (hs : state.inRange)
    (h : lnm_update_state_read dev state.if_name = some (rx_new, tx_new)) :
    lnm_update_state dev state =
      { if_name := state.if_name
        rx := (state.rx.2, rx_new)
        tx := (state.tx.2, tx_new)
        d_rx := (state.d_rx.2, spec_smooth (spec_delta state.rx.2 rx_new))
        d_tx := (state.d_tx.2, spec_smooth (spec_delta state.tx.2 tx_new))
        update_succeeded := (state.update_succeeded.2, true) } ∧
    spec_smooth 0 = 0 ∧ spec_smooth 1 = 1 ∧ spec_smooth 1024 = 513 := by
  obtain ⟨hrx, htx⟩ := lnm_update_state_read_lt dev state.if_name rx_new tx_new h
  obtain ⟨-, h1, -, h2, -⟩ := hs
  refine ⟨?_, by decide, by decide, by decide⟩
  simp only [lnm_update_state, h]
  rw [spec_delta_eq h1 hrx, spec_delta_eq h2 htx,
    spec_smooth_eq (spec_delta_lt h1 hrx), spec_smooth_eq (spec_delta_lt h2 htx)]

/-- C1, at a concrete input: `sample_state` updated from a source whose `eth0`
row carries the counters 10 and 20. -/
theorem lnm_update_state_success_witness :
    sample_state.inRange ∧
    lnm_update_state_read (some (sample_dev "10" "20")) sample_state.if_name = some (10, 20) ∧
    lnm_update_state (some (sample_dev "10" "20")) sample_state =
      { if_name := sample_state.if_name
        rx := (sample_state.rx.2, 10)
        tx := (sample_state.tx.2, 20)
        d_rx := (sample_state.d_rx.2, spec_smooth (spec_delta sample_state.rx.2 10))
        d_tx := (sample_state.d_tx.2, spec_smooth (spec_delta sample_state.tx.2 20))
        update_succeeded := (sample_state.update_succeeded.2, true) } :=
  ⟨by decide, by decide,
    (lnm_update_state_success sample_state (some (sample_dev "10" "20")) 10 20
      (by decide) (by decide)).1⟩

/-- C2: when the read fails, `lnm_update_state` leaves `if_name`, `rx`, `tx`,
`d_rx` and `d_tx` unchanged and only shifts the success history to
`(update_succeeded[1], false)`. -/
theorem lnm_update_state_failure (state : lnm_state) (dev : Option (List Nat))
    (h : lnm_update_state_read dev state.if_name = none) :
    lnm_update_state dev state =
      { if_name := state.if_name
        rx := state.rx
        tx := state.tx
        d_rx := state.d_rx
        d_tx := state.d_tx
        update_succeeded := (state.update_succeeded.2, false) } := by
  simp only [lnm_update_state, h]

/-- C2, at concrete inputs, one for each cause of failure: the source cannot be
opened, it has fewer than two header lines, no row matches, and a counter
field does not parse. -/
theorem lnm_update_state_failure_witness :
    lnm_update_state_read none sample_state.if_name = none ∧
    lnm_update_state_read (some (bytes "Inter-|   Receive\n")) sample_state.if_name = none ∧
    lnm_update_state_read (some (sample_dev "10" "20")) (bytes "eth") = none ∧
    lnm_update_state_read (some (sample_dev "10" "2x")) sample_state.if_name = none ∧
    lnm_update_state (some (sample_dev "10" "2x")) sample_state =
      { if_name := sample_state.if_name
        rx := sample_state.rx
        tx := sample_state.tx
        d_rx := sample_state.d_rx
        d_tx := sample_state.d_tx
        update_succeeded := (sample_state.update_succeeded.2, false) } :=
  ⟨by decide, by decide, by decide, by decide,
    lnm_update_state_failure sample_state (some (sample_dev "10" "2x")) (by decide)⟩

/-- C3: at `previous = 2^64 - 1 - 5` and `current = 10` the update step
computes the raw delta 15 and stores the smoothed delta 8, whereas the number
of increments from `previous` to `current`, `(current - previous) mod 2^64`,
is 16 (whose smoothed value would be 9). -/
theorem raw_delta_wrap_off_by_one :
    raw_delta (2 ^ 64 - 1 - 5) 10 = 15 ∧
    damp (raw_delta (2 ^ 64 - 1 - 5) 10) = 8 ∧
    (lnm_update_state (some (sample_dev "10" "20")) sample_state).rx = (2 ^ 64 - 1 - 5, 10) ∧
    (lnm_update_state (some (sample_dev "10" "20")) sample_state).d_rx.2 = 8 ∧
    ((10 : Int) - (2 ^ 64 - 1 - 5)) % 2 ^ 64 = 16 ∧
    spec_smooth 16 = 9 := by
  refine ⟨by decide, by decide, by decide, by decide, by decide, by decide⟩

theorem delta_inv_init (if_name : List Nat) : delta_inv (lnm_state_init if_name) := by
  constructor
  · show 0 = damp (raw_delta 0 0)
    decide
  · show 0 = damp (raw_delta 0 0)
    decide

theorem delta_inv_update (dev : Option (List Nat)) (s : lnm_state) (h : delta_inv s) :
    delta_inv (lnm_update_state dev s) := by
  unfold lnm_update_state
  split
  · exact ⟨rfl, rfl⟩
  · exact h

theorem delta_inv_foldl (devs : List (Option (List Nat))) (s : lnm_state) (h : delta_inv s) :
    delta_inv (devs.foldl (fun state dev => lnm_update_state dev state) s) := by
  induction devs generalizing s with
  | nil => exact h
  | cons dev devs ih => exact ih _ (delta_inv_update dev s h)

/-- C4: in every state reached from the initial state by a sequence of
updates, successful or failed, the current smoothed delta of each direction is
0 when the raw delta `r` of the stored sample pair is 0, and is
`floor(r/2) + 1`, hence at most that, when `r` is not 0. -/
theorem lnm_state_after_delta_bound (if_name : List Nat) (devs : List (Option (List Nat))) :
    (raw_delta (lnm_state_after if_name devs).rx.1 (lnm_state_after if_name devs).rx.2 = 0 →
      (lnm_state_after if_name devs).d_rx.2 = 0) ∧
    (raw_delta (lnm_state_after if_name devs).rx.1 (lnm_state_after if_name devs).rx.2 ≠ 0 →
      (lnm_state_after if_name devs).d_rx.2 =
        raw_delta (lnm_state_after if_name devs).rx.1 (lnm_state_after if_name devs).rx.2 / 2 + 1 ∧
      (lnm_state_after if_name devs).d_rx.2 ≤
        raw_delta (lnm_state_after if_name devs).rx.1 (lnm_state_after if_name devs).rx.2 / 2 + 1) ∧
    (raw_delta (lnm_state_after if_name devs).tx.1 (lnm_state_after if_name devs).tx.2 = 0 →
      (lnm_state_after if_name devs).d_tx.2 = 0) ∧
    (raw_delta (lnm_state_after if_name devs).tx.1 (lnm_state_after if_name devs).tx.2 ≠ 0 →
      (lnm_state_after if_name devs).d_tx.2 =
        raw_delta (lnm_state_after if_name devs).tx.1 (lnm_state_after if_name devs).tx.2 / 2 + 1 ∧
      (lnm_state_after if_name devs).d_tx.2 ≤
        raw_delta (lnm_state_after if_name devs).tx.1 (lnm_state_after if_name devs).tx.2 / 2 + 1) := by
  have hinv : delta_inv (lnm_state_after if_name devs) :=
    delta_inv_foldl devs (lnm_state_init if_name) (delta_inv_init if_name)
  generalize lnm_state_after if_name devs = s at hinv ⊢
  obtain ⟨h1, h2⟩ := hinv
  rw [damp_eq (raw_delta_lt _ _)] at h1 h2
  refine ⟨fun h => ?_, fun h => ?_, fun h => ?_, fun h => ?_⟩
  · rw [h1, h]; rfl
  · rw [h1, if_pos h]; exact ⟨rfl, le_refl _⟩
  · rw [h2, h]; rfl
  · rw [h2, if_pos h]; exact ⟨rfl, le_refl _⟩

/-! ## The speed formatter -/

theorem set_four (dst : List Nat) (h : 4 ≤ dst.length) (a b c d : Nat) :
    (((dst.set 0 a).set 1 b).set 2 c).set 3 d = [a, b, c, d] ++ dst.drop 4 := by
  match dst, h with
  | _ :: _ :: _ :: _ :: tl, _ => simp

theorem low10_eq (x : Nat) : ((x &&& 0x3FF) % 2 ^ 32) % 2 ^ 16 = x % 1024 := by
  have h : x &&& 0x3FF = x % 2 ^ 10 := Nat.and_pow_two_sub_one_eq_mod x 10
  rw [h]
  have : x % 2 ^ 10 < 2 ^ 10 := Nat.mod_lt _ (by decide)
  omega

theorem lnm_print_speed_loop_step (dst : List Nat) (p : Nat) (rest : List Nat) (x c : Nat)
    (h : ¬ x < 10) :
    lnm_print_speed_loop dst (p :: rest) x c =
      lnm_print_speed_loop dst rest (x / 1024)
        (if x % 1024 = 0 then 48 else 49 + x % 1024 / 114) := by
  rw [lnm_print_speed_loop, if_neg h]
  simp only [low10_eq, Nat.shiftRight_eq_div_pow]
  have h1 : (49 + x % 1024 / 114) % 256 = 49 + x % 1024 / 114 := by
    have : x % 1024 < 1024 := Nat.mod_lt _ (by decide)
    omega
  rw [h1]

theorem lnm_print_speed_loop_spec (dst : List Nat) (hd : 4 ≤ dst.length) (ps : List Nat)
    (x c n : Nat) (hn : n < ps.length) (hx : x / 1024 ^ n < 10) :
    ∃ k, k < ps.length ∧ x / 1024 ^ k < 10 ∧ (∀ j, j < k → 10 ≤ x / 1024 ^ j) ∧
      lnm_print_speed_loop dst ps x c =
        [48 + x / 1024 ^ k, 46,
          if k = 0 then c
          else if x / 1024 ^ (k - 1) % 1024 = 0 then 48
          else 49 + x / 1024 ^ (k - 1) % 1024 / 114,
          ps.getD k 0] ++ dst.drop 4 := by
  induction ps generalizing x c n with
  | nil => simp at hn
  | cons p rest ih =>
    by_cases h : x < 10
    · refine ⟨0, by simp, by simpa using h, fun j hj => by omega, ?_⟩
      rw [lnm_print_speed_loop, if_pos h, set_four dst hd]
      have : (48 + x) % 256 = 48 + x := by omega
      simp [this]
    · cases n with
      | zero => simp at hx; omega
      | succ n =>
        have hx1 : x / 1024 / 1024 ^ n < 10 := by
          rw [Nat.div_div_eq_div_mul, ← Nat.pow_succ']; exact hx
        obtain ⟨k, hk, hlt, hmin, heq⟩ :=
          ih (x / 1024) (if x % 1024 = 0 then 48 else 49 + x % 1024 / 114) n
            (by simpa using hn) hx1
        have hdiv : ∀ j, x / 1024 / 1024 ^ j = x / 1024 ^ (j + 1) := fun j => by
          rw [Nat.div_div_eq_div_mul, ← Nat.pow_succ']
        refine ⟨k + 1, by simpa using hk, by rw [← hdiv]; exact hlt, ?_, ?_⟩
        · intro j hj
          cases j with
          | zero => simp; omega
          | succ j => rw [← hdiv]; exact hmin j (by omega)
        · rw [lnm_print_speed_loop_step dst p rest x c h, heq]
          simp only [hdiv, Nat.add_sub_cancel, List.getD_cons_succ, Nat.succ_ne_zero, if_false]
          cases k with
          | zero => simp
          | succ k => simp

theorem lnm_print_speed_spec (dst : List Nat) (hd : 4 ≤ dst.length) (x : Nat)
    (hx : x < 2 ^ 64) :
    ∃ k, k < 9 ∧ x / 1024 ^ k < 10 ∧ (∀ j, j < k → 10 ≤ x / 1024 ^ j) ∧
      lnm_print_speed dst x =
        [48 + x / 1024 ^ k, 46,
          if k = 0 ∨ x / 1024 ^ (k - 1) % 1024 = 0 then 48
          else 49 + x / 1024 ^ (k - 1) % 1024 / 114,
          prefixes.getD k 0] ++ dst.drop 4 := by
  have h7 : x / 1024 ^ 7 < 10 := by
    have : x / 1024 ^ 7 = 0 := Nat.div_eq_of_lt (by norm_num; omega)
    omega
  obtain ⟨k, hk, hlt, hmin, heq⟩ :=
    lnm_print_speed_loop_spec dst hd prefixes x 48 7 (by decide) h7
  refine ⟨k, hk, hlt, hmin, ?_⟩
  rw [lnm_print_speed, heq]
  by_cases h0 : k = 0
  · simp [h0]
  · simp [h0]

/-- C5: for every unsigned 64-bit `x`, `lnm_print_speed` writes the token
`D . F P` where `k` is the least prefix index with `x / 1024^k < 10`, `P` is
the `k`-th prefix letter, `D` is the digit `x / 1024^k`, and `F` is `0` when
`k = 0` or `low10 = 0` and the digit `1 + low10 / 114` otherwise, with
`low10 = x / 1024^(k-1) mod 1024`; 0 gives `0.0B`, 9 gives `9.0B` and 1536
gives `1.5K`. -/
theorem lnm_print_speed_token (dst : List Nat) (x : Nat) (hd : 4 ≤ dst.length)
    (hx : x < 2 ^ 64) :
    (∃ k, k < 9 ∧ x / 1024 ^ k < 10 ∧ (∀ j, j < k → ¬ x / 1024 ^ j < 10) ∧
      lnm_print_speed dst x =
        [48 + x / 1024 ^ k, 46,
          if k = 0 ∨ x / 1024 ^ (k - 1) % 1024 = 0 then 48
          else 49 + x / 1024 ^ (k - 1) % 1024 / 114,
          prefixes.getD k 0] ++ dst.drop 4) ∧
    lnm_print_speed [0, 0, 0, 0] 0 = bytes "0.0B" ∧
    lnm_print_speed [0, 0, 0, 0] 9 = bytes "9.0B" ∧
    lnm_print_speed [0, 0, 0, 0] 1536 = bytes "1.5K" := by
  refine ⟨?_, by decide, by decide, by decide⟩
  obtain ⟨k, hk, hlt, hmin, heq⟩ := lnm_print_speed_spec dst hd x hx
  exact ⟨k, hk, hlt, fun j hj => Nat.not_lt.mpr (hmin j hj), heq⟩

/-- C5, at a concrete input: 1536 written into a zeroed buffer of four bytes. -/
theorem lnm_print_speed_token_witness :
    ∃ k, k < 9 ∧ 1536 / 1024 ^ k < 10 ∧ (∀ j, j < k → ¬ 1536 / 1024 ^ j < 10) ∧
      lnm_print_speed [0, 0, 0, 0] 1536 =
        [48 + 1536 / 1024 ^ k, 46,
          if k = 0 ∨ 1536 / 1024 ^ (k - 1) % 1024 = 0 then 48
          else 49 + 1536 / 1024 ^ (k - 1) % 1024 / 114,
          prefixes.getD k 0] ++ [0, 0, 0, 0].drop 4 :=
  (lnm_print_speed_token [0, 0, 0, 0] 1536 (by decide) (by decide)).1

theorem lnm_print_speed_shape (dst : List Nat) (x : Nat) (hd : 4 ≤ dst.length)
    (hx : x < 2 ^ 64) :
    ∃ d f p, lnm_print_speed dst x = [d, 46, f, p] ++ dst.drop 4 ∧
      lnm_print_speed [0, 0, 0, 0] x = [d, 46, f, p] ∧
      48 ≤ d ∧ d ≤ 57 ∧ 48 ≤ f ∧ f ≤ 57 ∧ p ∈ prefixes := by
  obtain ⟨k, hk, hlt, hmin, heq⟩ := lnm_print_speed_spec dst hd x hx
  obtain ⟨k0, -, hlt0, hmin0, heq0⟩ := lnm_print_speed_spec [0, 0, 0, 0] (by decide) x hx
  have hkk : k0 = k := by
    rcases Nat.lt_trichotomy k0 k with h | h | h
    · exact absurd hlt0 (Nat.not_lt.mpr (hmin k0 h))
    · exact h
    · exact absurd hlt (Nat.not_lt.mpr (hmin0 k h))
  subst hkk
  have hlow : x / 1024 ^ (k0 - 1) % 1024 < 1024 := Nat.mod_lt _ (by decide)
  have hp : prefixes.getD k0 0 ∈ prefixes := by
    rw [List.getD_eq_getElem _ _ (by simpa [prefixes] using hk)]
    exact List.getElem_mem _
  refine ⟨_, _, _, heq, by simpa using heq0, ?_, ?_, ?_, ?_, hp⟩
  · exact Nat.le_add_right _ _
  · generalize x / 1024 ^ k0 = q at hlt
    omega
  · split
    · exact le_refl _
    · exact Nat.le_trans (by decide) (Nat.le_add_right 49 _)
  · generalize x / 1024 ^ (k0 - 1) % 1024 = q at hlow
    split <;> omega

/-- C6: for every unsigned 64-bit `x`, `lnm_print_speed` overwrites the four
destination bytes, whatever they held, with a well-formed token: a decimal
digit, a point, a decimal digit and one of the nine prefix letters; the bytes
after the fourth are left as they were. -/
theorem lnm_print_speed_well_formed (dst : List Nat) (x : Nat) (hd : 4 ≤ dst.length)
    (hx : x < 2 ^ 64) :
    ∃ d f p, lnm_print_speed dst x = [d, 46, f, p] ++ dst.drop 4 ∧
      lnm_print_speed [0, 0, 0, 0] x = [d, 46, f, p] ∧
      48 ≤ d ∧ d ≤ 57 ∧ 48 ≤ f ∧ f ≤ 57 ∧ p ∈ prefixes :=
  lnm_print_speed_shape dst x hd hx

/-- C6, at a concrete input: the largest 64-bit value written over a buffer
of five non-zero bytes. -/
theorem lnm_print_speed_well_formed_witness :
    ∃ d f p, lnm_print_speed [1, 2, 3, 4, 5] (2 ^ 64 - 1) = [d, 46, f, p] ++ [1, 2, 3, 4, 5].drop 4 ∧
      lnm_print_speed [0, 0, 0, 0] (2 ^ 64 - 1) = [d, 46, f, p] ∧
      48 ≤ d ∧ d ≤ 57 ∧ 48 ≤ f ∧ f ≤ 57 ∧ p ∈ prefixes :=
  lnm_print_speed_well_formed [1, 2, 3, 4, 5] (2 ^ 64 - 1) (by decide) (by decide)

/-! ## The change-gated emitter -/

theorem prefixes_ne_zero {p : Nat} (h : p ∈ prefixes) : p ≠ 0 := by
  rintro rfl
  revert h
  decide

theorem lnm_print_state_buf_eq (state : lnm_state) (hrx : state.d_rx.2 < 2 ^ 64)
    (htx : state.d_tx.2 < 2 ^ 64) :
    ∃ d1 f1 p1 d2 f2 p2,
      lnm_print_speed [0, 0, 0, 0] state.d_rx.2 = [d1, 46, f1, p1] ∧
      lnm_print_speed [0, 0, 0, 0] state.d_tx.2 = [d2, 46, f2, p2] ∧
      d1 ≠ 0 ∧ f1 ≠ 0 ∧ p1 ≠ 0 ∧ d2 ≠ 0 ∧ f2 ≠ 0 ∧ p2 ≠ 0 ∧
      lnm_print_state_buf state =
        [d1, 46, f1, p1, 0xE2, 0x96, 0xBC, 32, d2, 46, f2, p2, 0xE2, 0x96, 0xB2, 10, 0] := by
  obtain ⟨d1, f1, p1, h1, h1z, hd1, -, hf1, -, hp1⟩ :=
    lnm_print_speed_shape (List.replicate 17 0) state.d_rx.2 (by decide) hrx
  obtain ⟨d2, f2, p2, h2, h2z, hd2, -, hf2, -, hp2⟩ :=
    lnm_print_speed_shape (List.replicate 9 0) state.d_tx.2 (by decide) htx
  refine ⟨d1, f1, p1, d2, f2, p2, h1z, h2z, by omega, by omega, prefixes_ne_zero hp1,
    by omega, by omega, prefixes_ne_zero hp2, ?_⟩
  unfold lnm_print_state_buf
  simp only [h1]
  have e1 : List.drop 8 ([d1, 46, f1, p1] ++ List.drop 4 (List.replicate 17 0)) =
      List.replicate 9 0 := rfl
  rw [e1, h2]
  rfl

theorem fputs_line (d1 f1 p1 d2 f2 p2 : Nat) (hd1 : d1 ≠ 0) (hf1 : f1 ≠ 0) (hp1 : p1 ≠ 0)
    (hd2 : d2 ≠ 0) (hf2 : f2 ≠ 0) (hp2 : p2 ≠ 0) :
    fputs [d1, 46, f1, p1, 0xE2, 0x96, 0xBC, 32, d2, 46, f2, p2, 0xE2, 0x96, 0xB2, 10, 0] =
      [d1, 46, f1, p1, 0xE2, 0x96, 0xBC, 32, d2, 46, f2, p2, 0xE2, 0x96, 0xB2, 10] := by
  simp [fputs, List.takeWhile_cons, hd1, hf1, hp1, hd2, hf2, hp2]

theorem must_print_iff (state : lnm_state) :
    must_print state = true ↔
      (state.update_succeeded.2 = false ∨
        state.update_succeeded.1 ≠ state.update_succeeded.2 ∨
        state.d_rx.1 ≠ state.d_rx.2 ∨ state.d_tx.1 ≠ state.d_tx.2) := by
  simp [must_print, or_assoc]

theorem lnm_print_state_isSome (state : lnm_state) :
    (lnm_print_state state).isSome = must_print state := by
  unfold lnm_print_state
  cases must_print state <;> simp

theorem lnm_update_state_of_read (state : lnm_state) (dev : Option (List Nat))
    (r : Nat × Nat) (h : lnm_update_state_read dev state.if_name = some r) :
    (lnm_update_state dev state).update_succeeded = (state.update_succeeded.2, true) ∧
    (lnm_update_state dev state).if_name = state.if_name := by
  simp only [lnm_update_state, h, and_self]

/-- C7: `lnm_print_state` emits a line if and only if the most recent update
failed, or the success flags differ, or the smoothed receive deltas differ, or
the smoothed transmit deltas differ; so after two consecutive successful
cycles with identical smoothed deltas nothing is emitted on the second. -/
theorem lnm_print_state_emits_iff (state : lnm_state) :
    ((lnm_print_state state).isSome = true ↔
      (state.update_succeeded.2 = false ∨
        state.update_succeeded.1 ≠ state.update_succeeded.2 ∨
        state.d_rx.1 ≠ state.d_rx.2 ∨ state.d_tx.1 ≠ state.d_tx.2)) ∧
    ∀ (dev1 dev2 : Option (List Nat)) (r1 r2 : Nat × Nat),
      lnm_update_state_read dev1 state.if_name = some r1 →
      lnm_update_state_read dev2 state.if_name = some r2 →
      (lnm_update_state dev2 (lnm_update_state dev1 state)).d_rx.1 =
        (lnm_update_state dev2 (lnm_update_state dev1 state)).d_rx.2 →
      (lnm_update_state dev2 (lnm_update_state dev1 state)).d_tx.1 =
        (lnm_update_state dev2 (lnm_update_state dev1 state)).d_tx.2 →
      lnm_print_state (lnm_update_state dev2 (lnm_update_state dev1 state)) = none := by
  refine ⟨by rw [lnm_print_state_isSome, must_print_iff], ?_⟩
  intro dev1 dev2 r1 r2 h1 h2 hrx htx
  obtain ⟨hf1, hn1⟩ := lnm_update_state_of_read state dev1 r1 h1
  obtain ⟨hf2, -⟩ := lnm_update_state_of_read (lnm_update_state dev1 state) dev2 r2
    (by rw [hn1]; exact h2)
  rw [hf1] at hf2
  have hm : must_print (lnm_update_state dev2 (lnm_update_state dev1 state)) = false := by
    simp [must_print, hf2, hrx, htx]
  simp [lnm_print_state, hm]

/-- C7, at a concrete input: the third and the fourth update of `sample_state`
from the same source both succeed with all deltas equal to 0, and the fourth
emits nothing. -/
theorem lnm_print_state_emits_iff_witness :
    lnm_update_state_read (some (sample_dev "10" "20"))
      (lnm_update_state (some (sample_dev "10" "20")) sample_state).if_name = some (10, 20) ∧
    lnm_print_state (lnm_update_state (some (sample_dev "10" "20"))
      (lnm_update_state (some (sample_dev "10" "20"))
        (lnm_update_state (some (sample_dev "10" "20")) sample_state))) = none :=
  ⟨by decide,
    (lnm_print_state_emits_iff
      (lnm_update_state (some (sample_dev "10" "20")) sample_state)).2
      (some (sample_dev "10" "20")) (some (sample_dev "10" "20")) (10, 20) (10, 20)
      (by decide) (by decide) (by decide) (by decide)⟩

/-- C8, as stated, fails: in the initial state, whose most recent update
failed, the line written is `0.0?▼ 0.0?▲` and not the success rendering with
the mantissa digits (bytes 0 and 8) replaced by `?`. -/
theorem lnm_print_state_mantissa_kept :
    (lnm_state_init []).inRange ∧ (lnm_state_init []).update_succeeded.2 = false ∧
    lnm_print_state (lnm_state_init []) = some failure_line ∧
    lnm_print_state (lnm_state_init []) ≠
      some (((fputs (lnm_print_state_buf (lnm_state_init []))).set 0 63).set 8 63) := by
  refine ⟨by decide, by decide, by decide, by decide⟩

/-- C8, amended: for every monitor state with 64-bit deltas whose most recent
update failed, the line written is the success rendering, 16 bytes long, with
the prefix letter of the receive token (byte 3) and of the transmit token
(byte 11) replaced by `?`, every other byte being preserved. -/
theorem lnm_print_state_failure_line (state : lnm_state) (hrx : state.d_rx.2 < 2 ^ 64)
    (htx : state.d_tx.2 < 2 ^ 64) (hf : state.update_succeeded.2 = false) :
    lnm_print_state state =
      some (((fputs (lnm_print_state_buf state)).set 3 63).set 11 63) ∧
    (fputs (lnm_print_state_buf state)).length = 16 ∧
    fputs (lnm_print_state_buf state) =
      lnm_print_speed [0, 0, 0, 0] state.d_rx.2 ++ [0xE2, 0x96, 0xBC] ++ [32] ++
        lnm_print_speed [0, 0, 0, 0] state.d_tx.2 ++ [0xE2, 0x96, 0xB2] ++ [10] := by
  obtain ⟨d1, f1, p1, d2, f2, p2, h1, h2, hd1, hf1, hp1, hd2, hf2, hp2, hb⟩ :=
    lnm_print_state_buf_eq state hrx htx
  have hm : must_print state = true := by simp [must_print, hf]
  have hl := fputs_line d1 f1 p1 d2 f2 p2 hd1 hf1 hp1 hd2 hf2 hp2
  have hq := fputs_line d1 f1 63 d2 f2 63 hd1 hf1 (by decide) hd2 hf2 (by decide)
  refine ⟨?_, ?_, ?_⟩
  · simp only [lnm_print_state, hm, hf, hb, hl]
    simpa using hq
  · rw [hb, hl]; rfl
  · rw [hb, hl, h1, h2]; rfl

/-- C8, amended, at a concrete input: `sample_state`, whose most recent update
failed. -/
theorem lnm_print_state_failure_line_witness :
    lnm_print_state sample_state =
      some (((fputs (lnm_print_state_buf sample_state)).set 3 63).set 11 63) ∧
    (fputs (lnm_print_state_buf sample_state)).length = 16 ∧
    fputs (lnm_print_state_buf sample_state) =
      lnm_print_speed [0, 0, 0, 0] sample_state.d_rx.2 ++ [0xE2, 0x96, 0xBC] ++ [32] ++
        lnm_print_speed [0, 0, 0, 0] sample_state.d_tx.2 ++ [0xE2, 0x96, 0xB2] ++ [10] :=
  lnm_print_state_failure_line sample_state (by decide) (by decide) (by decide)

/-- C9: for every monitor state with 64-bit deltas whose most recent update
succeeded and for which a line is emitted, the bytes written are exactly the
16 bytes: the receive token, `E2 96 BC`, a space, the transmit token,
`E2 96 B2` and a newline. -/
theorem lnm_print_state_success_line (state : lnm_state) (hrx : state.d_rx.2 < 2 ^ 64)
    (htx : state.d_tx.2 < 2 ^ 64) (hs : state.update_succeeded.2 = true)
    (he : (lnm_print_state state).isSome = true) :
    lnm_print_state state =
      some (lnm_print_speed [0, 0, 0, 0] state.d_rx.2 ++ [0xE2, 0x96, 0xBC] ++ [32] ++
        lnm_print_speed [0, 0, 0, 0] state.d_tx.2 ++ [0xE2, 0x96, 0xB2] ++ [10]) ∧
    (lnm_print_speed [0, 0, 0, 0] state.d_rx.2 ++ [0xE2, 0x96, 0xBC] ++ [32] ++
        lnm_print_speed [0, 0, 0, 0] state.d_tx.2 ++ [0xE2, 0x96, 0xB2] ++ [10]).length = 16 ∧
    (lnm_print_speed [0, 0, 0, 0] state.d_rx.2).length = 4 ∧
    (lnm_print_speed [0, 0, 0, 0] state.d_tx.2).length = 4 := by
  obtain ⟨d1, f1, p1, d2, f2, p2, h1, h2, hd1, hf1, hp1, hd2, hf2, hp2, hb⟩ :=
    lnm_print_state_buf_eq state hrx htx
  rw [lnm_print_state_isSome] at he
  have hl := fputs_line d1 f1 p1 d2 f2 p2 hd1 hf1 hp1 hd2 hf2 hp2
  refine ⟨?_, ?_, ?_, ?_⟩
  · simp [lnm_print_state, he, hs, hb, hl, h1, h2]
  · rw [h1, h2]; rfl
  · rw [h1]; rfl
  · rw [h2]; rfl

/-- C9, at a concrete input: `sample_state` after a successful update, which
stores the deltas 8 and 8 and writes `8.0B▼ 8.0B▲`. -/
theorem lnm_print_state_success_line_witness :
    lnm_print_state (lnm_update_state (some (sample_dev "10" "20")) sample_state) =
      some (bytes "8.0B" ++ [0xE2, 0x96, 0xBC] ++ [32] ++ bytes "8.0B" ++
        [0xE2, 0x96, 0xB2] ++ [10]) :=
  (lnm_print_state_success_line (lnm_update_state (some (sample_dev "10" "20")) sample_state)
    (by decide) (by decide) (by decide) (by decide)).1

/-! ## The loop of `main` -/

theorem lnm_update_state_none_init (if_name : List Nat) :
    lnm_update_state none (lnm_state_init if_name) = lnm_state_init if_name := rfl

theorem lnm_print_state_init (if_name : List Nat) :
    lnm_print_state (lnm_state_init if_name) = some failure_line := by
  simp only [lnm_print_state, must_print, lnm_print_state_buf, lnm_state_init]
  decide

theorem main_cycles_all_fail (if_name : List Nat) (n : Nat) :
    main_cycles (lnm_state_init if_name) (List.replicate n none) =
      List.replicate n (some failure_line) := by
  induction n with
  | zero => rfl
  | succ n ih =>
    rw [List.replicate_succ, main_cycles, lnm_update_state_none_init, lnm_print_state_init, ih,
      List.replicate_succ]

/-- C10, as stated, fails: when the source is missing at the start-up update
and at two cycles, the second cycle writes a line as well. -/
theorem main_loop_second_failure_emits :
    main_loop (bytes "eth0") none [none, none] = [some failure_line, some failure_line] ∧
    ¬ ∀ (if_name : List Nat) (n : Nat), ∃ line,
      main_loop if_name none (List.replicate (n + 1) none) = some line :: List.replicate n none := by
  refine ⟨by decide, fun h => ?_⟩
  obtain ⟨line, hl⟩ := h (bytes "eth0") 1
  revert hl
  simp [main_loop, main_cycles, lnm_update_state_none_init, lnm_print_state_init]

/-- C10, amended: in a run from the initial state in which every sampling
attempt fails, every cycle writes the same line `0.0?▼ 0.0?▲`, the first and
each later one. -/
theorem main_loop_all_fail (if_name : List Nat) (n : Nat) :
    main_loop if_name none (List.replicate n none) = List.replicate n (some failure_line) := by
  rw [main_loop, lnm_update_state_none_init, main_cycles_all_fail]

/-! ## The word scanner -/

theorem dropWhile_head (p : Nat → Bool) (l : List Nat) :
    l.dropWhile p = [] ∨ ∃ c r, l.dropWhile p = c :: r ∧ p c = false := by
  induction l with
  | nil => exact Or.inl rfl
  | cons a l ih =>
    by_cases h : p a
    · simpa [List.dropWhile_cons, h] using ih
    · exact Or.inr ⟨a, l, by simp [List.dropWhile_cons, h], by simpa using h⟩

theorem takeWhile_all (p : Nat → Bool) (l : List Nat) : ∀ c ∈ l.takeWhile p, p c = true := by
  induction l with
  | nil => simp
  | cons a l ih =>
    by_cases h : p a
    · simpa [List.takeWhile_cons, h] using ih
    · simp [List.takeWhile_cons, h]

theorem is_blank_iff (c : Nat) : is_blank c = true ↔ c = 32 ∨ c = 9 := by
  simp [is_blank]

theorem is_blank_false_iff (c : Nat) : is_blank c = false ↔ c ≠ 32 ∧ c ≠ 9 := by
  simp [is_blank]

theorem lnm_read_word_eq (s : List Nat) :
    lnm_read_word s =
      ((s.dropWhile is_blank).takeWhile (fun c => !is_blank c),
        (s.dropWhile is_blank).dropWhile (fun c => !is_blank c)) := by
  unfold lnm_read_word
  cases s with
  | nil => rfl
  | cons a s => simp

/-- C11: for every span `s`, `lnm_read_word` returns a word `t` and leaves the
remainder `r` with `s = w ++ t ++ r`, where `w` is the longest prefix of `s`
made of spaces and tabs, `t` has no space or tab, and `r` is empty or begins
with a space or tab; `t` is empty exactly when `s` is empty or all spaces and
tabs, and then nothing is left. -/
theorem lnm_read_word_split (s : List Nat) :
    s = s.takeWhile is_blank ++ (lnm_read_word s).1 ++ (lnm_read_word s).2 ∧
    (∀ c ∈ s.takeWhile is_blank, c = 32 ∨ c = 9) ∧
    (∀ c ∈ (lnm_read_word s).1, c ≠ 32 ∧ c ≠ 9) ∧
    ((lnm_read_word s).2 = [] ∨
      ∃ c r, (lnm_read_word s).2 = c :: r ∧ (c = 32 ∨ c = 9)) ∧
    ((lnm_read_word s).1 = [] ↔ ∀ c ∈ s, c = 32 ∨ c = 9) ∧
    ((lnm_read_word s).1 = [] → (lnm_read_word s).2 = []) := by
  rw [lnm_read_word_eq]
  simp only
  have hnil : (s.dropWhile is_blank).takeWhile (fun c => !is_blank c) = [] ↔
      s.dropWhile is_blank = [] := by
    constructor
    · intro h
      rcases dropWhile_head is_blank s with h0 | ⟨c, r, h0, hc⟩
      · exact h0
      · rw [h0, List.takeWhile_cons] at h
        simp [hc] at h
    · intro h
      rw [h]; rfl
  refine ⟨?_, ?_, ?_, ?_, ?_, ?_⟩
  · rw [List.append_assoc, List.takeWhile_append_dropWhile, List.takeWhile_append_dropWhile]
  · intro c hc
    exact (is_blank_iff c).mp (takeWhile_all _ _ c hc)
  · intro c hc
    have := takeWhile_all _ _ c hc
    exact (is_blank_false_iff c).mp (by simpa using this)
  · rcases dropWhile_head (fun c => !is_blank c) (s.dropWhile is_blank) with h | ⟨c, r, h, hc⟩
    · exact Or.inl h
    · exact Or.inr ⟨c, r, h, (is_blank_iff c).mp (by simpa using hc)⟩
  · rw [hnil, List.dropWhile_eq_nil_iff]
    constructor
    · intro h c hc; exact (is_blank_iff c).mp (h c hc)
    · intro h c hc; exact (is_blank_iff c).mpr (h c hc)
  · intro h
    rw [hnil] at h
    rw [h]; rfl

theorem splitOnP_head_tail (s : List Nat) :
    ∃ tl, s.splitOnP is_blank = s.takeWhile (fun c => !is_blank c) :: tl ∧
      tl.filter (fun t => !t.isEmpty) = spec_words (s.dropWhile (fun c => !is_blank c)) := by
  induction s with
  | nil => exact ⟨[], rfl, rfl⟩
  | cons x xs ih =>
    obtain ⟨tl, h1, h2⟩ := ih
    rw [List.splitOnP_cons]
    by_cases h : is_blank x = true
    · refine ⟨xs.splitOnP is_blank, by simp [h], ?_⟩
      simp [h, spec_words, List.splitOnP_cons]
    · refine ⟨tl, by simp [h, h1], ?_⟩
      simpa [h] using h2

theorem spec_words_nil : spec_words [] = [] := rfl

theorem spec_words_blank (c : Nat) (s : List Nat) (h : is_blank c = true) :
    spec_words (c :: s) = spec_words s := by
  simp [spec_words, List.splitOnP_cons, h]

theorem spec_words_dropWhile (s : List Nat) :
    spec_words (s.dropWhile is_blank) = spec_words s := by
  induction s with
  | nil => rfl
  | cons a s ih =>
    by_cases h : is_blank a = true
    · rw [List.dropWhile_cons, if_pos h, ih, spec_words_blank a s h]
    · rw [List.dropWhile_cons, if_neg h]

theorem spec_words_word (c : Nat) (s : List Nat) (h : is_blank c = false) :
    spec_words (c :: s) =
      (c :: s.takeWhile (fun c => !is_blank c)) ::
        spec_words (s.dropWhile (fun c => !is_blank c)) := by
  obtain ⟨tl, h1, h2⟩ := splitOnP_head_tail (c :: s)
  rw [spec_words, h1]
  simp only [List.takeWhile_cons, List.dropWhile_cons, h, Bool.not_false, if_true] at h2 ⊢
  rw [List.filter_cons]
  simp [h2]

theorem lnm_read_word_calls_nil (m : Nat) :
    lnm_read_word_calls m [] = List.replicate m [] := by
  induction m with
  | zero => rfl
  | succ m ih =>
    rw [lnm_read_word_calls, List.replicate_succ]
    show [] :: lnm_read_word_calls m [] = _
    rw [ih]

theorem dropWhile_length_le (p : Nat → Bool) (l : List Nat) :
    (l.dropWhile p).length ≤ l.length := by
  induction l with
  | nil => simp
  | cons a l ih =>
    rw [List.dropWhile_cons]
    split
    · exact Nat.le_succ_of_le ih
    · exact le_refl _

theorem lnm_read_word_calls_eq (s : List Nat) (m : Nat) :
    lnm_read_word_calls ((spec_words s).length + m) s =
      spec_words s ++ List.replicate m [] := by
  generalize hn : s.length = n
  induction n using Nat.strong_induction_on generalizing s with
  | _ n ih =>
    subst hn
    rw [← spec_words_dropWhile s]
    cases hsk : s.dropWhile is_blank with
    | nil =>
      have hw : lnm_read_word s = ([], []) := by rw [lnm_read_word_eq, hsk]; rfl
      rw [spec_words_nil]
      cases m with
      | zero => rfl
      | succ m =>
        show lnm_read_word_calls (0 + (m + 1)) s = _
        rw [Nat.zero_add, lnm_read_word_calls, hw, lnm_read_word_calls_nil]
        rfl
    | cons c r =>
      have hc : is_blank c = false := by
        rcases dropWhile_head is_blank s with h0 | ⟨c0, r0, h0, hc0⟩
        · rw [h0] at hsk; cases hsk
        · rw [h0] at hsk; cases hsk; exact hc0
      have hw : lnm_read_word s =
          (c :: r.takeWhile (fun c => !is_blank c), r.dropWhile (fun c => !is_blank c)) := by
        rw [lnm_read_word_eq, hsk]
        simp [List.takeWhile_cons, List.dropWhile_cons, hc]
      have hlen : (r.dropWhile (fun c => !is_blank c)).length < s.length := by
        have h1 := dropWhile_length_le (fun c => !is_blank c) r
        have h2 := dropWhile_length_le is_blank s
        rw [hsk] at h2
        simp only [List.length_cons] at h2
        omega
      rw [spec_words_word c r hc, List.length_cons, Nat.add_right_comm, lnm_read_word_calls, hw]
      simp only
      rw [ih _ hlen _ rfl]
      rfl

/-- C12: calling `lnm_read_word` again and again on one cursor yields, in
order, exactly the non-empty pieces obtained by splitting the span at space
and tab bytes, none of them empty, and after these finitely many words every
further call returns the empty word; `a  bb<tab>c` gives `a`, `bb`, `c` and
then empty. -/
theorem lnm_read_word_calls_words (s : List Nat) (m : Nat) :
    lnm_read_word_calls ((spec_words s).length + m) s =
      spec_words s ++ List.replicate m [] ∧
    (∀ t ∈ spec_words s, t ≠ []) ∧
    spec_words (bytes "a  bb\tc") = [bytes "a", bytes "bb", bytes "c"] ∧
    lnm_read_word_calls 5 (bytes "a  bb\tc") = [bytes "a", bytes "bb", bytes "c", [], []] := by
  refine ⟨lnm_read_word_calls_eq s m, ?_, by decide, by decide⟩
  intro t ht
  simp only [spec_words, List.mem_filter] at ht
  intro h
  rw [h] at ht
  simp at ht

/-! ## The unsigned integer parser -/

theorem lnm_convert_to_u64_loop_none (cs : List Nat) (dst m : Nat) :
    lnm_convert_to_u64_loop cs dst m = none ↔ ∃ c ∈ cs, ¬ (48 ≤ c ∧ c ≤ 57) := by
  induction cs generalizing dst m with
  | nil => simp [lnm_convert_to_u64_loop]
  | cons a cs ih =>
    rw [lnm_convert_to_u64_loop]
    by_cases h : 48 ≤ a ∧ a ≤ 57
    · have h' : (!(decide (a ≥ 48) && decide (a ≤ 57))) = false := by simp [h.1, h.2]
      rw [h']
      simp only [Bool.false_eq_true, if_false]
      rw [ih]
      simp [h]
    · have h' : (!(decide (a ≥ 48) && decide (a ≤ 57))) = true := by
        simp only [not_and_or, not_le] at h
        rcases h with h | h
        · simp; omega
        · simp; omega
      rw [h']
      simp only [if_true, true_iff]
      exact ⟨a, List.mem_cons_self _ _, h⟩

theorem lnm_convert_to_u64_none (s : List Nat) :
    lnm_convert_to_u64 s = none ↔ s = [] ∨ ∃ c ∈ s, ¬ (48 ≤ c ∧ c ≤ 57) := by
  unfold lnm_convert_to_u64
  cases s with
  | nil => simp
  | cons a s =>
    rw [if_neg (by simp), lnm_convert_to_u64_loop_none]
    simp only [List.mem_reverse, false_or, reduceCtorEq]

/-- C13: `lnm_convert_to_u64` fails if and only if the span is empty or holds
a byte outside `'0'..'9'`; the empty span and `12a` fail, and every non-empty
span of digits, of any length and with any leading zeros, succeeds. -/
theorem lnm_convert_to_u64_fails_iff (s : List Nat) :
    (lnm_convert_to_u64 s = none ↔ s = [] ∨ ∃ c ∈ s, ¬ (48 ≤ c ∧ c ≤ 57)) ∧
    lnm_convert_to_u64 (bytes "") = none ∧
    lnm_convert_to_u64 (bytes "12a") = none ∧
    (s ≠ [] → (∀ c ∈ s, 48 ≤ c ∧ c ≤ 57) → (lnm_convert_to_u64 s).isSome = true) := by
  refine ⟨lnm_convert_to_u64_none s, by decide, by decide, fun hne hd => ?_⟩
  rw [Option.isSome_iff_ne_none, Ne, lnm_convert_to_u64_none]
  rintro (h | ⟨c, hc, h⟩)
  · exact hne h
  · exact h (hd c hc)

/-- C13, at a concrete input: the digits `007` with leading zeros parse. -/
theorem lnm_convert_to_u64_fails_iff_witness :
    (lnm_convert_to_u64 (bytes "007")).isSome = true :=
  (lnm_convert_to_u64_fails_iff (bytes "007")).2.2.2 (by decide) (by decide)

theorem lnm_convert_to_u64_loop_value (cs : List Nat) (dst m : Nat) (hd : dst < 2 ^ 64)
    (hdig : ∀ c ∈ cs, 48 ≤ c ∧ c ≤ 57) :
    lnm_convert_to_u64_loop cs dst m = some ((dst + m * decimal_rev cs) % 2 ^ 64) := by
  induction cs generalizing dst m with
  | nil =>
    simp only [lnm_convert_to_u64_loop, decimal_rev, List.foldr_nil, Nat.mul_zero, Nat.add_zero]
    rw [Nat.mod_eq_of_lt hd]
  | cons a cs ih =>
    have ha := hdig a (List.mem_cons_self _ _)
    have h' : (!(decide (a ≥ 48) && decide (a ≤ 57))) = false := by simp [ha.1, ha.2]
    rw [lnm_convert_to_u64_loop, h']
    simp only [Bool.false_eq_true, if_false]
    rw [ih _ _ (u64_lt _) (fun c hc => hdig c (List.mem_cons_of_mem _ hc))]
    congr 1
    have hr : decimal_rev (a :: cs) = 10 * decimal_rev cs + (a - 48) := rfl
    rw [hr]
    unfold u64
    have e : (dst + m * (10 * decimal_rev cs + (a - 48))) =
        (dst + (a - 48) * m) + m * 10 * decimal_rev cs := by ring
    rw [e]
    have h1 : ((dst + (a - 48) % 2 ^ 64 * m % 2 ^ 64) % 2 ^ 64) % 2 ^ 64 =
        (dst + (a - 48) * m) % 2 ^ 64 := by
      simp [Nat.add_mod, Nat.mul_mod]
    conv_lhs => rw [Nat.add_mod, h1, Nat.mul_mod, Nat.mod_mod]
    conv_rhs => rw [Nat.add_mod, Nat.mul_mod (m * 10)]

theorem spec_decimal_eq (s : List Nat) : spec_decimal s = decimal_rev s.reverse := by
  rw [spec_decimal, decimal_rev, List.foldr_reverse]

theorem decimal_rev_nines (n : Nat) : decimal_rev (List.replicate n 57) + 1 = 10 ^ n := by
  induction n with
  | zero => rfl
  | succ n ih =>
    have hr : decimal_rev (List.replicate (n + 1) 57) =
        10 * decimal_rev (List.replicate n 57) + (57 - 48) := rfl
    rw [hr, Nat.pow_succ]
    omega

theorem lnm_convert_to_u64_value (s : List Nat) (hne : s ≠ [])
    (hdig : ∀ c ∈ s, 48 ≤ c ∧ c ≤ 57) :
    lnm_convert_to_u64 s = some (spec_decimal s % 2 ^ 64) := by
  unfold lnm_convert_to_u64
  rw [if_neg (by simpa using hne),
    lnm_convert_to_u64_loop_value _ _ _ (by decide) (fun c hc => hdig c (by simpa using hc)),
    spec_decimal_eq]
  simp

/-- C14: for every non-empty span of ASCII decimal digits, `lnm_convert_to_u64`
succeeds with `N mod 2^64`, where `N` is the number the span denotes in base
10, most-significant digit first; `0` gives 0, `12345` gives 12345 and a
string of `n > 20` nines gives `(10^n - 1) mod 2^64`. -/
theorem lnm_convert_to_u64_wraps (s : List Nat) (n : Nat) (hne : s ≠ [])
    (hdig : ∀ c ∈ s, 48 ≤ c ∧ c ≤ 57) (hn : 20 < n) :
    lnm_convert_to_u64 s = some (spec_decimal s % 2 ^ 64) ∧
    lnm_convert_to_u64 (bytes "0") = some 0 ∧
    lnm_convert_to_u64 (bytes "12345") = some 12345 ∧
    lnm_convert_to_u64 (List.replicate n 57) = some ((10 ^ n - 1) % 2 ^ 64) := by
  refine ⟨lnm_convert_to_u64_value s hne hdig, by decide, by decide, ?_⟩
  have h9 : spec_decimal (List.replicate n 57) = 10 ^ n - 1 := by
    rw [spec_decimal_eq, List.reverse_replicate]
    have := decimal_rev_nines n
    omega
  rw [← h9]
  apply lnm_convert_to_u64_value
  · intro h
    have := congrArg List.length h
    simp at this
    omega
  · intro c hc
    rw [List.eq_of_mem_replicate hc]
    decide

/-- C14, at a concrete input: the digits `18446744073709551617`, which denote
`2^64 + 1`, and a string of 21 nines. -/
theorem lnm_convert_to_u64_wraps_witness :
    lnm_convert_to_u64 (bytes "18446744073709551617") =
      some (spec_decimal (bytes "18446744073709551617") % 2 ^ 64) ∧
    spec_decimal (bytes "18446744073709551617") % 2 ^ 64 = 1 ∧
    lnm_convert_to_u64 (List.replicate 21 57) = some ((10 ^ 21 - 1) % 2 ^ 64) :=
  ⟨(lnm_convert_to_u64_wraps (bytes "18446744073709551617") 21 (by decide) (by decide)
      (by decide)).1, by decide,
    (lnm_convert_to_u64_wraps (bytes "18446744073709551617") 21 (by decide) (by decide)
      (by decide)).2.2.2⟩

/-! ## The line skipper -/

theorem fgets_of_ne_nil (n : Nat) (stream : List Nat) (h : stream ≠ []) :
    fgets n stream = some (fgets_loop stream (n - 1)) := by
  cases stream with
  | nil => exact absurd rfl h
  | cons c rest => rfl

theorem fgets_loop_newline (l rest : List Nat) (room : Nat) (h10 : 10 ∉ l)
    (hlen : l.length < room) :
    fgets_loop (l ++ 10 :: rest) room = (l ++ [10], rest) := by
  induction l generalizing room with
  | nil =>
    have h0 : room ≠ 0 := by simp at hlen; omega
    simp [fgets_loop, h0]
  | cons a l ih =>
    have h0 : room ≠ 0 := by simp at hlen; omega
    have ha : a ≠ 10 := fun h => h10 (by simp [h])
    have hl : 10 ∉ l := fun h => h10 (List.mem_cons_of_mem _ h)
    have hlen' : l.length < room - 1 := by simp at hlen; omega
    simp [fgets_loop, h0, ha, ih (room - 1) hl hlen']

theorem fgets_loop_chunk (l rest : List Nat) (room : Nat) (h10 : 10 ∉ l)
    (hlen : l.length ≤ room) (hfull : rest = [] ∨ l.length = room) :
    fgets_loop (l ++ rest) room = (l, rest) := by
  induction l generalizing room with
  | nil =>
    rcases hfull with h | h
    · subst h; rfl
    · have h0 : room = 0 := by simpa using h.symm
      subst h0
      cases rest <;> simp [fgets_loop]
  | cons a l ih =>
    have h0 : room ≠ 0 := by simp at hlen; omega
    have ha : a ≠ 10 := fun h => h10 (by simp [h])
    have hl : 10 ∉ l := fun h => h10 (List.mem_cons_of_mem _ h)
    have hlen' : l.length ≤ room - 1 := by simp at hlen; omega
    have hfull' : rest = [] ∨ l.length = room - 1 := by
      rcases hfull with h | h
      · exact Or.inl h
      · right; simp at h; omega
    simp [fgets_loop, h0, ha, ih (room - 1) hl hlen' hfull']

theorem strlen_eq_length (l : List Nat) (h0 : 0 ∉ l) : strlen l = l.length := by
  unfold strlen
  rw [List.takeWhile_eq_self_iff.mpr]
  intro c hc
  have : c ≠ 0 := fun h => h0 (h ▸ hc)
  simpa using this

theorem takeWhile_ne_zero (l : List Nat) (h0 : 0 ∉ l) :
    l.takeWhile (fun c => c ≠ 0) = l := by
  rw [List.takeWhile_eq_self_iff]
  intro c hc
  have : c ≠ 0 := fun h => h0 (h ▸ hc)
  simpa using this

theorem lnm_skip_line_loop_line (l rest : List Nat) (fuel : Nat) (h10 : 10 ∉ l) (h0 : 0 ∉ l)
    (hf : l.length < fuel) :
    lnm_skip_line_loop fuel (l ++ 10 :: rest) = some (true, rest) := by
  generalize hn : l.length = n
  induction n using Nat.strong_induction_on generalizing l fuel with
  | _ n ih =>
    subst hn
    cases fuel with
    | zero => omega
    | succ fuel =>
      rw [lnm_skip_line_loop, fgets_of_ne_nil _ _ (by simp)]
      by_cases hlt : l.length < lnm_line_buf_size - 1
      · rw [fgets_loop_newline l rest _ h10 hlt]
        simp only
        have hz : 0 ∉ l ++ [10] := by simp [h0]
        rw [strlen_eq_length _ hz, if_neg]
        rintro ⟨h1, h2⟩
        apply h2
        simp only [List.length_append, List.length_singleton] at h1
        have h3 : lnm_line_buf_size - 1 - 1 = l.length := by omega
        rw [h3, List.getD_eq_getElem _ _ (by simp)]
        simp
      · have hsplit : l = l.take (lnm_line_buf_size - 1) ++ l.drop (lnm_line_buf_size - 1) :=
          (List.take_append_drop _ _).symm
        have htl : (l.take (lnm_line_buf_size - 1)).length = lnm_line_buf_size - 1 := by
          rw [List.length_take]; omega
        have ht10 : 10 ∉ l.take (lnm_line_buf_size - 1) := fun h => h10 (List.mem_of_mem_take h)
        have ht0 : 0 ∉ l.take (lnm_line_buf_size - 1) := fun h => h0 (List.mem_of_mem_take h)
        have hd10 : 10 ∉ l.drop (lnm_line_buf_size - 1) := fun h => h10 (List.mem_of_mem_drop h)
        have hd0 : 0 ∉ l.drop (lnm_line_buf_size - 1) := fun h => h0 (List.mem_of_mem_drop h)
        have hstream : l ++ 10 :: rest =
            l.take (lnm_line_buf_size - 1) ++ (l.drop (lnm_line_buf_size - 1) ++ 10 :: rest) := by
          rw [← List.append_assoc, List.take_append_drop]
        rw [hstream, fgets_loop_chunk _ _ _ ht10 (le_of_eq htl) (Or.inr htl)]
        simp only
        rw [strlen_eq_length _ ht0, if_pos]
        · have hdl : (l.drop (lnm_line_buf_size - 1)).length < l.length := by
            rw [List.length_drop]
            have : 0 < lnm_line_buf_size - 1 := by decide
            omega
          exact ih _ hdl _ fuel hd10 hd0 (by omega) rfl
        · refine ⟨htl, fun h => ht10 ?_⟩
          rw [← h, List.getD_eq_getElem _ _ (by rw [htl]; decide)]
          exact List.getElem_mem _

theorem lnm_skip_line_line (l rest : List Nat) (h10 : 10 ∉ l) (h0 : 0 ∉ l) :
    lnm_skip_line (l ++ 10 :: rest) = some (true, rest) := by
  apply lnm_skip_line_loop_line l rest _ h10 h0
  simp
  omega

theorem lnm_update_state_read_scan (h1 h2 data if_name : List Nat)
    (h1n : 10 ∉ h1) (h1z : 0 ∉ h1) (h2n : 10 ∉ h2) (h2z : 0 ∉ h2) :
    lnm_update_state_read (some (h1 ++ 10 :: (h2 ++ 10 :: data))) if_name =
      lnm_update_state_scan if_name data := by
  simp only [lnm_update_state_read, lnm_skip_line_line h1 _ h1n h1z,
    lnm_skip_line_line h2 _ h2n h2z, lnm_update_state_scan]

/-- C17: on a stream whose first line `l` is free of NUL bytes, `lnm_skip_line`
returns true and leaves exactly what follows the first newline, whatever the
length of `l`, a line of exactly 2047 bytes included; so after the two header
skips the reader stands at the third line and two other header lines give the
same result. -/
theorem lnm_skip_line_consumes (l rest h1 h2 g1 g2 data if_name : List Nat)
    (h10 : 10 ∉ l) (h0 : 0 ∉ l)
    (h1n : 10 ∉ h1) (h1z : 0 ∉ h1) (h2n : 10 ∉ h2) (h2z : 0 ∉ h2)
    (g1n : 10 ∉ g1) (g1z : 0 ∉ g1) (g2n : 10 ∉ g2) (g2z : 0 ∉ g2) :
    lnm_skip_line (l ++ 10 :: rest) = some (true, rest) ∧
    lnm_skip_line (List.replicate 2047 120 ++ 10 :: rest) = some (true, rest) ∧
    lnm_update_state_read (some (h1 ++ 10 :: (h2 ++ 10 :: data))) if_name =
      lnm_update_state_scan if_name data ∧
    lnm_update_state_read (some (h1 ++ 10 :: (h2 ++ 10 :: data))) if_name =
      lnm_update_state_read (some (g1 ++ 10 :: (g2 ++ 10 :: data))) if_name := by
  refine ⟨lnm_skip_line_line l rest h10 h0, ?_,
    lnm_update_state_read_scan h1 h2 data if_name h1n h1z h2n h2z, ?_⟩
  · apply lnm_skip_line_line
    · intro h; have := List.eq_of_mem_replicate h; omega
    · intro h; have := List.eq_of_mem_replicate h; omega
  · rw [lnm_update_state_read_scan h1 h2 data if_name h1n h1z h2n h2z,
      lnm_update_state_read_scan g1 g2 data if_name g1n g1z g2n g2z]

/-! ## The statistics table reader -/

theorem lnm_read_word_calls_take (n j : Nat) (s : List Nat) :
    (lnm_read_word_calls (n + j) s).take n = lnm_read_word_calls n s := by
  induction n generalizing s with
  | zero => simp [lnm_read_word_calls]
  | succ n ih =>
    rw [Nat.add_right_comm, lnm_read_word_calls, lnm_read_word_calls, List.take_succ_cons, ih]

theorem lnm_read_word_calls_getElem (n k : Nat) (s : List Nat) (hk : k < n) :
    (lnm_read_word_calls n s)[k]? = some ((spec_words s)[k]?.getD []) := by
  rw [← lnm_read_word_calls_take n (spec_words s).length s, List.getElem?_take_of_lt hk,
    Nat.add_comm, lnm_read_word_calls_eq]
  by_cases h : k < (spec_words s).length
  · rw [List.getElem?_append_left h, List.getElem?_eq_getElem h]
    rfl
  · rw [List.getElem?_append_right (by omega), List.getElem?_eq_none (l := spec_words s) (by omega)]
    rw [List.getElem?_replicate, if_pos (by omega)]
    rfl

theorem lnm_read_word_calls_skip (n k : Nat) (s : List Nat) (hk : k < n) :
    (lnm_read_word_calls n s)[k]? = some (lnm_read_word (lnm_update_state_skip k s)).1 := by
  induction n generalizing k s with
  | zero => omega
  | succ n ih =>
    rw [lnm_read_word_calls]
    cases k with
    | zero => simp [lnm_update_state_skip]
    | succ k =>
      rw [List.getElem?_cons_succ, ih k _ (by omega), lnm_update_state_skip]

theorem lnm_read_word_skip (k : Nat) (s : List Nat) :
    (lnm_read_word (lnm_update_state_skip k s)).1 = (spec_words s)[k]?.getD [] := by
  have h := lnm_read_word_calls_getElem (k + 1) k s (by omega)
  rw [lnm_read_word_calls_skip (k + 1) k s (by omega)] at h
  exact Option.some.inj h

theorem lnm_read_word_first (s : List Nat) :
    (lnm_read_word s).1 = (spec_words s)[0]?.getD [] :=
  lnm_read_word_skip 0 s

theorem lnm_read_word_rx (s : List Nat) :
    (lnm_read_word (lnm_read_word s).2).1 = (spec_words s)[1]?.getD [] :=
  lnm_read_word_skip 1 s

theorem lnm_read_word_tx (s : List Nat) :
    (lnm_read_word (lnm_update_state_skip 7 (lnm_read_word (lnm_read_word s).2).2)).1 =
      (spec_words s)[9]?.getD [] :=
  lnm_read_word_skip 9 s

theorem row_key_iff (key if_name : List Nat) (hk : key ≠ []) :
    (¬ (key.length = 0 ∨ key.getD (key.length - 1) 0 ≠ 58) ∧
      ¬ (key.length - 1 ≠ if_name.length ∨ key.take if_name.length ≠ if_name)) ↔
    (key.getLast? = some 58 ∧ key.dropLast = if_name) := by
  rcases List.eq_nil_or_concat key with rfl | ⟨init, a, rfl⟩
  · exact absurd rfl hk
  · rw [List.concat_eq_append] at hk ⊢
    simp only [List.length_append, List.length_singleton, Nat.add_sub_cancel, not_or, not_not,
      List.getLast?_append, List.getLast?_singleton, List.dropLast_concat]
    have hget : (init ++ [a]).getD init.length 0 = a := by simp
    rw [hget]
    constructor
    · rintro ⟨⟨-, ha⟩, hlen, htake⟩
      refine ⟨by simp [ha], ?_⟩
      rw [← hlen, List.take_left'] at htake
      · exact htake
      · rfl
    · rintro ⟨ha, hinit⟩
      subst hinit
      simp at ha
      subst ha
      simp

theorem lnm_read_line_data (l rest : List Nat) (hl : data_line l)
    (ht : l.getLast? = some 10 ∨ rest = []) :
    lnm_read_line (l ++ rest) = some (l, rest) := by
  obtain ⟨hne, hlen, -, h10⟩ := hl
  rw [lnm_read_line, fgets_of_ne_nil _ _ (by simp [hne])]
  congr 1
  by_cases hlast : l.getLast? = some 10
  · have hl' : l.dropLast ++ [10] = l := List.dropLast_append_getLast? 10 (by simp [hlast])
    have hdl : l.dropLast.length < lnm_line_buf_size - 1 := by
      have h1 : l.length ≠ 0 := fun h => hne (List.length_eq_zero.mp h)
      have h2 : lnm_line_buf_size - 1 = 2047 := rfl
      rw [List.length_dropLast, h2]
      omega
    have := fgets_loop_newline l.dropLast rest _ h10 hdl
    rw [hl'] at this
    rw [← this, ← hl']
    simp
  · have hrest : rest = [] := by
      rcases ht with h | h
      · exact absurd h hlast
      · exact h
    subst hrest
    have hall : 10 ∉ l := by
      intro hmem
      rcases List.eq_nil_or_concat l with rfl | ⟨init, a, rfl⟩
      · exact absurd rfl hne
      · rw [List.concat_eq_append] at hmem hlast h10
        simp only [List.dropLast_concat] at h10
        have hlast' : a ≠ 10 := by
          intro h
          apply hlast
          rw [h]
          simp
        rcases List.mem_append.mp hmem with h | h
        · exact h10 h
        · simp at h; exact hlast' h.symm
    exact fgets_loop_chunk l [] _ hall hlen (Or.inl rfl)

theorem spec_words_ne_nil (s t : List Nat) (h : t ∈ spec_words s) : t ≠ [] := by
  simp only [spec_words, List.mem_filter] at h
  intro e
  rw [e] at h
  simp at h

theorem lnm_update_state_rows_step (if_name l rest : List Nat) (fuel : Nat) (hz : 0 ∉ l)
    (hread : lnm_read_line (l ++ rest) = some (l, rest)) :
    lnm_update_state_rows if_name (fuel + 1) (l ++ rest) =
      if spec_row_matches if_name l = true then
        some ((spec_words l)[1]?.getD [], (spec_words l)[9]?.getD [])
      else lnm_update_state_rows if_name fuel rest := by
  rw [lnm_update_state_rows, hread]
  simp only
  rw [takeWhile_ne_zero l hz, lnm_read_word_rx, lnm_read_word_tx, lnm_read_word_first]
  cases hw : spec_words l with
  | nil => simp [spec_row_matches, hw]
  | cons key tl =>
    have hk : key ≠ [] := spec_words_ne_nil l key (by rw [hw]; exact List.mem_cons_self _ _)
    have hiff := row_key_iff key if_name hk
    have hm : spec_row_matches if_name l = true ↔
        (key.getLast? = some 58 ∧ key.dropLast = if_name) := by
      simp [spec_row_matches, hw]
    simp only [List.getElem?_cons_zero, Option.getD_some]
    by_cases hmatch : key.getLast? = some 58 ∧ key.dropLast = if_name
    · obtain ⟨h1, h2⟩ := hiff.mpr hmatch
      rw [if_neg h1, if_neg h2, if_pos (hm.mpr hmatch)]
    · rw [if_neg (fun h => hmatch (hm.mp h))]
      by_cases h1 : key.length = 0 ∨ key.getD (key.length - 1) 0 ≠ 58
      · rw [if_pos h1]
      · rw [if_neg h1, if_pos]
        by_contra h2
        exact hmatch (hiff.mp ⟨h1, h2⟩)

theorem lnm_update_state_rows_lines (if_name : List Nat) (lines : List (List Nat)) (fuel : Nat)
    (hl : data_lines lines) (hf : lines.length < fuel) :
    lnm_update_state_rows if_name fuel lines.flatten =
      some (match lines.find? (spec_row_matches if_name) with
        | none => ([], [])
        | some l => ((spec_words l)[1]?.getD [], (spec_words l)[9]?.getD [])) := by
  induction lines generalizing fuel with
  | nil =>
    cases fuel with
    | zero => simp at hf
    | succ fuel => rfl
  | cons l ls ih =>
    obtain ⟨h1, h2, h3⟩ := hl
    cases fuel with
    | zero => simp at hf
    | succ fuel =>
      have ht : l.getLast? = some 10 ∨ ls.flatten = [] := by
        rcases h2 with h | h
        · exact Or.inl h
        · right; rw [h]; rfl
      rw [List.flatten_cons, lnm_update_state_rows_step if_name l _ fuel h1.2.2.1
        (lnm_read_line_data l _ h1 ht), List.find?_cons]
      by_cases hm : spec_row_matches if_name l = true
      · rw [if_pos hm, hm]
      · rw [if_neg hm]
        have hm' : spec_row_matches if_name l = false := by simpa using hm
        rw [hm']
        exact ih fuel h3 (by simpa using hf)

theorem data_lines_length (lines : List (List Nat)) (hl : data_lines lines) :
    lines.length ≤ lines.flatten.length := by
  induction lines with
  | nil => simp
  | cons l ls ih =>
    obtain ⟨h1, -, h3⟩ := hl
    have : l.length ≠ 0 := fun h => h1.1 (List.length_eq_zero.mp h)
    have := ih h3
    simp only [List.length_cons, List.flatten_cons, List.length_append]
    omega

theorem lnm_update_state_scan_lines (if_name : List Nat) (lines : List (List Nat))
    (hl : data_lines lines) :
    lnm_update_state_scan if_name lines.flatten = spec_read if_name lines := by
  have hlen := data_lines_length lines hl
  rw [lnm_update_state_scan, lnm_update_state_rows_lines if_name lines _ hl (by omega), spec_read]
  have hnil : lnm_convert_to_u64 [] = none := rfl
  cases lines.find? (spec_row_matches if_name) with
  | none => simp only [hnil]
  | some l =>
    simp only
    cases h1 : (spec_words l)[1]? with
    | none => simp only [Option.getD_none, hnil]
    | some a =>
      cases h9 : (spec_words l)[9]? with
      | none =>
        simp only [Option.getD_none, Option.getD_some, hnil]
        cases lnm_convert_to_u64 a <;> rfl
      | some b =>
        simp only [Option.getD_some]
        cases lnm_convert_to_u64 a <;> cases lnm_convert_to_u64 b <;> rfl

theorem spec_read_some_iff (if_name : List Nat) (lines : List (List Nat)) (rx tx : Nat) :
    spec_read if_name lines = some (rx, tx) ↔
      ∃ line, lines.find? (spec_row_matches if_name) = some line ∧
        ∃ rx_tok tx_tok, (spec_words line)[1]? = some rx_tok ∧
          (spec_words line)[9]? = some tx_tok ∧
          lnm_convert_to_u64 rx_tok = some rx ∧ lnm_convert_to_u64 tx_tok = some tx := by
  unfold spec_read
  cases lines.find? (spec_row_matches if_name) with
  | none => simp
  | some l =>
    simp only [Option.some.injEq, exists_eq_left']
    cases (spec_words l)[1]? with
    | none => simp
    | some a =>
      cases (spec_words l)[9]? with
      | none => simp
      | some b =>
        simp only [Option.some.injEq, exists_eq_left']
        cases ha : lnm_convert_to_u64 a <;> cases hb : lnm_convert_to_u64 b <;> simp [ha, hb]

/-- C15, as stated, fails.  On the row `eth0: 1 0 0 0 0 0 0 0 2`, whose 9th
token after the name ends the line, the reader fails, because the token it
converts is `2` with the newline, while the row read as a line has the tokens
1 and 2.  On a row with a NUL byte behind the 9th token the reader succeeds
with `(1, 2)`, because the line is cut at the NUL, while the 9th token of the
line is not purely decimal.  On a line `eth0:` in front of a full row the
reader passes over the first line, whose token is `eth0:` with the newline,
and succeeds on the second, while the first line is the first match and has
no counters. -/
theorem lnm_update_state_read_line_end :
    (lnm_update_state_read (some (sample_header ++ lines_stream [short_row])) (bytes "eth0") =
        none ∧
      spec_read (bytes "eth0") [short_row] = some (1, 2)) ∧
    (lnm_update_state_read (some (sample_header ++ lines_stream [nul_row])) (bytes "eth0") =
        some (1, 2) ∧
      spec_read (bytes "eth0") [nul_row] = none ∧
      spec_read (bytes "eth0") [nul_row ++ [10]] = none) ∧
    (lnm_update_state_read (some (sample_header ++ lines_stream bare_key_rows)) (bytes "eth0") =
        some (1, 2) ∧
      spec_read (bytes "eth0") bare_key_rows = none) ∧
    ¬ ∀ (if_name : List Nat) (lines : List (List Nat)) (rx tx : Nat),
      (∀ l ∈ lines, 10 ∉ l ∧ l.length + 1 ≤ 2047) →
      (lnm_update_state_read (some (sample_header ++ lines_stream lines)) if_name =
          some (rx, tx) ↔
        ∃ line, lines.find? (spec_row_matches if_name) = some line ∧
          ∃ rx_tok tx_tok, (spec_words line)[1]? = some rx_tok ∧
            (spec_words line)[9]? = some tx_tok ∧
            lnm_convert_to_u64 rx_tok = some rx ∧ lnm_convert_to_u64 tx_tok = some tx) := by
  have hcode : lnm_update_state_read (some (sample_header ++ lines_stream [short_row]))
      (bytes "eth0") = none := by decide
  refine ⟨⟨hcode, by decide⟩, ⟨by decide, by decide, by decide⟩, ⟨by decide, by decide⟩, ?_⟩
  intro h
  have h1 := (h (bytes "eth0") [short_row] 1 2 (by decide)).mpr
    ⟨short_row, by decide, bytes "1", bytes "2", by decide, by decide, by decide, by decide⟩
  rw [hcode] at h1
  exact absurd h1 (by simp)

/-- C15, amended: for every interface name, two header lines free of NUL
bytes and every sequence of data lines that are free of NUL bytes, fit the
line buffer and are taken as `fgets` delivers them, each with its newline as
part of its last token, the reader succeeds with `(rx, tx)` if and only if
some line has a first token that ends with a colon and, the colon stripped,
equals the interface name, and on the first such line the 1st token after the
name parses as `rx` and the 9th as `tx`; with no such row the read fails. -/
theorem lnm_update_state_read_rows (if_name h1 h2 : List Nat) (lines : List (List Nat))
    (rx tx : Nat) (h1n : 10 ∉ h1) (h1z : 0 ∉ h1) (h2n : 10 ∉ h2) (h2z : 0 ∉ h2)
    (hl : data_lines lines) :
    (lnm_update_state_read (some (h1 ++ 10 :: (h2 ++ 10 :: lines.flatten))) if_name =
        some (rx, tx) ↔
      ∃ line, lines.find? (spec_row_matches if_name) = some line ∧
        ∃ rx_tok tx_tok, (spec_words line)[1]? = some rx_tok ∧
          (spec_words line)[9]? = some tx_tok ∧
          lnm_convert_to_u64 rx_tok = some rx ∧ lnm_convert_to_u64 tx_tok = some tx) ∧
    lnm_update_state_read (some (h1 ++ 10 :: (h2 ++ 10 :: lines.flatten))) if_name =
      spec_read if_name lines ∧
    (lines.find? (spec_row_matches if_name) = none →
      lnm_update_state_read (some (h1 ++ 10 :: (h2 ++ 10 :: lines.flatten))) if_name = none) := by
  have h : lnm_update_state_read (some (h1 ++ 10 :: (h2 ++ 10 :: lines.flatten))) if_name =
      spec_read if_name lines := by
    rw [lnm_update_state_read_scan h1 h2 _ if_name h1n h1z h2n h2z,
      lnm_update_state_scan_lines if_name lines hl]
  refine ⟨by rw [h]; exact spec_read_some_iff if_name lines rx tx, h, fun hnone => ?_⟩
  rw [h, spec_read, hnone]

/-- C15, amended, at a concrete input: the interface `eth0` in a source with two header
lines and the rows of `lo` and `eth0`; the row of `lo` is passed over and the
counters 10 and 20 are read. -/
theorem lnm_update_state_read_rows_witness :
    data_lines sample_lines ∧
    lnm_update_state_read (some (bytes "Inter-|   Receive" ++ 10 ::
      (bytes " face |bytes" ++ 10 :: sample_lines.flatten))) (bytes "eth0") = some (10, 20) ∧
    spec_read (bytes "eth0") sample_lines = some (10, 20) ∧
    spec_read (bytes "eth") sample_lines = none :=
  ⟨by decide,
    (lnm_update_state_read_rows (bytes "eth0") (bytes "Inter-|   Receive")
      (bytes " face |bytes") sample_lines 10 20 (by decide) (by decide) (by decide)
      (by decide) (by decide)).1.mpr
      ⟨bytes "  eth0: 10 1 2 3 4 5 6 7 20 0\n", by decide, bytes "10", bytes "20",
        by decide, by decide, by decide, by decide⟩,
    by decide, by decide⟩

/-- C17, at a concrete input: a header whose two lines both begin with
`eth0:`, in front of the row of `eth0`. -/
theorem lnm_skip_line_consumes_witness :
    lnm_skip_line (bytes "Inter-|   Receive" ++ 10 :: bytes " face |bytes\n") =
      some (true, bytes " face |bytes\n") ∧
    lnm_update_state_read (some (bytes "eth0: 7 0 0 0 0 0 0 0 7 0" ++ 10 ::
      (bytes "eth0: 8 0 0 0 0 0 0 0 8 0" ++ 10 :: sample_lines.flatten))) (bytes "eth0") =
      lnm_update_state_read (some (bytes "Inter-|   Receive" ++ 10 ::
        (bytes " face |bytes" ++ 10 :: sample_lines.flatten))) (bytes "eth0") :=
  ⟨(lnm_skip_line_consumes (bytes "Inter-|   Receive") (bytes " face |bytes\n")
      (bytes "eth0: 7 0 0 0 0 0 0 0 7 0") (bytes "eth0: 8 0 0 0 0 0 0 0 8 0")
      (bytes "Inter-|   Receive") (bytes " face |bytes") sample_lines.flatten (bytes "eth0")
      (by decide) (by decide) (by decide) (by decide) (by decide) (by decide) (by decide)
      (by decide) (by decide) (by decide)).1,
    (lnm_skip_line_consumes (bytes "Inter-|   Receive") (bytes " face |bytes\n")
      (bytes "eth0: 7 0 0 0 0 0 0 0 7 0") (bytes "eth0: 8 0 0 0 0 0 0 0 8 0")
      (bytes "Inter-|   Receive") (bytes " face |bytes") sample_lines.flatten (bytes "eth0")
      (by decide) (by decide) (by decide) (by decide) (by decide) (by decide) (by decide)
      (by decide) (by decide) (by decide)).2.2.2⟩

theorem lnm_read_line_chunk (l rest : List Nat) (h10 : 10 ∉ l) (hne : l ≠ [])
    (hlen : l.length = 2047) : lnm_read_line (l ++ rest) = some (l, rest) := by
  rw [lnm_read_line, fgets_of_ne_nil _ _ (by simp [hne])]
  congr 1
  exact fgets_loop_chunk l rest _ h10 (le_of_eq hlen) (Or.inr hlen)

theorem replicate_pad_ne_nil : List.replicate 2047 120 ≠ ([] : List Nat) := by
  intro h
  have := congrArg List.length h
  rw [List.length_replicate] at this
  exact absurd this (by decide)

theorem spec_row_matches_pad (n : Nat) :
    spec_row_matches (bytes "eth0") (List.replicate (n + 1) 120) = false := by
  have hw : spec_words (List.replicate (n + 1) 120) = [List.replicate (n + 1) 120] := by
    rw [spec_words, List.splitOnP_eq_single]
    · rfl
    · intro c hc
      rw [List.eq_of_mem_replicate hc]
      decide
  simp only [spec_row_matches, hw, List.head?_cons, List.getLast?_replicate]
  simp

theorem lnm_update_state_rows_overlong (fuel : Nat) :
    lnm_update_state_rows (bytes "eth0") (fuel + 2) overlong_line =
      some (bytes "1", bytes "2") := by
  have hpad : (0 : Nat) ∉ List.replicate 2047 120 := by
    intro h; have := List.eq_of_mem_replicate h; omega
  have hpad10 : (10 : Nat) ∉ List.replicate 2047 120 := by
    intro h; have := List.eq_of_mem_replicate h; omega
  rw [overlong_line, lnm_update_state_rows_step _ _ _ _ hpad
    (lnm_read_line_chunk _ _ hpad10 replicate_pad_ne_nil (List.length_replicate _ _)), spec_row_matches_pad 2046]
  simp only [Bool.false_eq_true, if_false]
  have hrest : bytes "eth0: 1 0 0 0 0 0 0 0 2 0\n" = bytes "eth0: 1 0 0 0 0 0 0 0 2 0\n" ++ [] :=
    (List.append_nil _).symm
  rw [hrest, lnm_update_state_rows_step _ _ _ _ (by decide)
    (lnm_read_line_data _ _ (by decide) (Or.inr rfl)), if_pos (by decide)]
  decide

theorem spec_row_matches_overlong : spec_row_matches (bytes "eth0") overlong_line = false := by
  have hpad : ∀ c ∈ List.replicate 2046 120, (fun c => !is_blank c) c = true := by
    intro c hc
    rw [List.eq_of_mem_replicate hc]
    decide
  have hline : overlong_line =
      120 :: (List.replicate 2046 120 ++ bytes "eth0: 1 0 0 0 0 0 0 0 2 0\n") := rfl
  have htake : (bytes "eth0: 1 0 0 0 0 0 0 0 2 0\n").takeWhile (fun c => !is_blank c) =
      bytes "eth0:" := by decide
  rw [hline, spec_row_matches, spec_words_word _ _ (by decide),
    List.takeWhile_append_of_pos hpad, htake]
  simp only [List.head?_cons]
  have hlen : (120 :: (List.replicate 2046 120 ++ bytes "eth0:")).dropLast ≠ bytes "eth0" := by
    intro h
    have := congrArg List.length h
    rw [List.length_dropLast, List.length_cons, List.length_append, List.length_replicate] at this
    have h4 : (bytes "eth0").length = 4 := by decide
    omega
  show ((120 :: (List.replicate 2046 120 ++ bytes "eth0:")).getLast? == some 58 &&
    (120 :: (List.replicate 2046 120 ++ bytes "eth0:")).dropLast == bytes "eth0") = false
  rw [Bool.and_eq_false_iff]
  exact Or.inr (beq_false_of_ne hlen)

/-- C16: on `overlong_dev`, whose one data line has 2047 bytes `x` in front of
`eth0: 1 0 0 0 0 0 0 0 2 0`, the reader takes the second fragment of that line
as the row of `eth0` and succeeds with `(1, 2)`, although the first token of
the logical line is not `eth0:`, so that the reader of the specification fails
on it; `lnm_skip_line`, on the same line, consumes it whole. -/
theorem lnm_read_line_not_drained :
    lnm_update_state_read (some overlong_dev) (bytes "eth0") = some (1, 2) ∧
    lnm_read_line overlong_line =
      some (List.replicate 2047 120, bytes "eth0: 1 0 0 0 0 0 0 0 2 0\n") ∧
    lnm_skip_line overlong_line = some (true, []) ∧
    (lnm_update_state (some overlong_dev) (lnm_state_init (bytes "eth0"))).update_succeeded.2 =
      true ∧
    spec_read (bytes "eth0") [overlong_line] = none := by
  have hread : lnm_update_state_read (some overlong_dev) (bytes "eth0") = some (1, 2) := by
    rw [overlong_dev, lnm_update_state_read_scan _ _ _ _ (by decide) (by decide) (by decide)
      (by decide), lnm_update_state_scan]
    have hlen : overlong_line.length + 1 = (overlong_line.length - 1) + 2 := by
      have : overlong_line.length = 2047 + (bytes "eth0: 1 0 0 0 0 0 0 0 2 0\n").length := by
        rw [overlong_line, List.length_append, List.length_replicate]
      omega
    rw [hlen, lnm_update_state_rows_overlong]
    decide
  have hpad10 : (10 : Nat) ∉ List.replicate 2047 120 := by
    intro h; have := List.eq_of_mem_replicate h; omega
  refine ⟨hread,
    lnm_read_line_chunk _ _ hpad10 replicate_pad_ne_nil (List.length_replicate _ _), ?_, ?_,
    ?_⟩
  · have e : overlong_line =
        (List.replicate 2047 120 ++ bytes "eth0: 1 0 0 0 0 0 0 0 2 0") ++ 10 :: [] := by
      rw [overlong_line, List.append_assoc]
      congr 1
    rw [e]
    apply lnm_skip_line_line
    · intro h
      rcases List.mem_append.mp h with h | h
      · exact hpad10 h
      · revert h; decide
    · intro h
      rcases List.mem_append.mp h with h | h
      · have := List.eq_of_mem_replicate h; omega
      · revert h; decide
  · simp only [lnm_update_state, lnm_state_init, hread]
  · simp [spec_read, List.find?, spec_row_matches_overlong]

/-! ## Arithmetic bounds of the update step -/

theorem damp_le (d : Nat) (hd : d < 2 ^ 64) : damp d ≤ 2 ^ 63 := by
  rw [damp_eq hd]
  split <;> omega

theorem range_inv_init (if_name : List Nat) : range_inv (lnm_state_init if_name) := by
  simp [range_inv, lnm_state_init]

theorem range_inv_update (dev : Option (List Nat)) (s : lnm_state) (h : range_inv s) :
    range_inv (lnm_update_state dev s) := by
  obtain ⟨h1, h2, h3, h4, h5, h6, h7, h8⟩ := h
  unfold lnm_update_state
  split
  · rename_i rx tx hread
    obtain ⟨hrx, htx⟩ := lnm_update_state_read_lt dev s.if_name rx tx hread
    exact ⟨h2, hrx, h4, htx, h6, damp_le _ (raw_delta_lt _ _), h8, damp_le _ (raw_delta_lt _ _)⟩
  · exact ⟨h1, h2, h3, h4, h5, h6, h7, h8⟩

theorem range_inv_foldl (devs : List (Option (List Nat))) (s : lnm_state) (h : range_inv s) :
    range_inv (devs.foldl (fun state dev => lnm_update_state dev state) s) := by
  induction devs generalizing s with
  | nil => exact h
  | cons dev devs ih => exact ih _ (range_inv_update dev s h)

/-- C18: the arithmetic of the update step never wraps: for 64-bit `previous`
and `current < previous` the sum `current + (2^64 - 1 - previous)` is at most
`2^64 - 2` and is what the code computes; for 64-bit `r` the damped value
`(r >> 1) + (r != 0)` is at most `2^63` and is what the code computes; so in
every reachable state the smoothed deltas are at most `2^63` and the current
ones equal the mathematical value of the formulas. -/
theorem update_arithmetic_no_wrap (previous current r : Nat) (if_name : List Nat)
    (devs : List (Option (List Nat))) (hp : previous < 2 ^ 64) (hc : current < previous)
    (hr : r < 2 ^ 64) :
    current + (2 ^ 64 - 1 - previous) ≤ 2 ^ 64 - 2 ∧
    raw_delta previous current = current + (2 ^ 64 - 1 - previous) ∧
    (r >>> 1) + (if r ≠ 0 then 1 else 0) ≤ 2 ^ 63 ∧
    damp r = (r >>> 1) + (if r ≠ 0 then 1 else 0) ∧
    (lnm_state_after if_name devs).d_rx.1 ≤ 2 ^ 63 ∧
    (lnm_state_after if_name devs).d_rx.2 ≤ 2 ^ 63 ∧
    (lnm_state_after if_name devs).d_tx.1 ≤ 2 ^ 63 ∧
    (lnm_state_after if_name devs).d_tx.2 ≤ 2 ^ 63 ∧
    (lnm_state_after if_name devs).d_rx.2 =
      spec_smooth (spec_delta (lnm_state_after if_name devs).rx.1
        (lnm_state_after if_name devs).rx.2) ∧
    (lnm_state_after if_name devs).d_tx.2 =
      spec_smooth (spec_delta (lnm_state_after if_name devs).tx.1
        (lnm_state_after if_name devs).tx.2) := by
  have hrange : range_inv (lnm_state_after if_name devs) :=
    range_inv_foldl devs (lnm_state_init if_name) (range_inv_init if_name)
  have hdelta : delta_inv (lnm_state_after if_name devs) :=
    delta_inv_foldl devs (lnm_state_init if_name) (delta_inv_init if_name)
  generalize lnm_state_after if_name devs = s at hrange hdelta ⊢
  obtain ⟨h1, h2, h3, h4, h5, h6, h7, h8⟩ := hrange
  obtain ⟨e1, e2⟩ := hdelta
  have hd := damp_eq hr
  rw [← Nat.shiftRight_eq_div_pow r 1] at hd
  refine ⟨by omega, ?_, ?_, hd, h5, h6, h7, h8, ?_, ?_⟩
  · rw [raw_delta_eq hp (by omega), if_neg (by omega)]
  · rw [← hd]; exact damp_le r hr
  · rw [e1, spec_delta_eq h1 h2, spec_smooth_eq (spec_delta_lt h1 h2)]
  · rw [e2, spec_delta_eq h3 h4, spec_smooth_eq (spec_delta_lt h3 h4)]

/-- C18, at a concrete input: the extreme values `previous = 2^64 - 1`,
`current = 2^64 - 2` and `r = 2^64 - 1`, and the state after a failed and a
successful update. -/
theorem update_arithmetic_no_wrap_witness :
    raw_delta (2 ^ 64 - 1) (2 ^ 64 - 2) = 2 ^ 64 - 2 + (2 ^ 64 - 1 - (2 ^ 64 - 1)) ∧
    damp (2 ^ 64 - 1) = ((2 ^ 64 - 1) >>> 1) + (if 2 ^ 64 - 1 ≠ 0 then 1 else 0) ∧
    damp (2 ^ 64 - 1) = 2 ^ 63 ∧
    (lnm_state_after (bytes "eth0") [none, some (sample_dev "10" "20")]).d_rx.2 ≤ 2 ^ 63 :=
  ⟨(update_arithmetic_no_wrap (2 ^ 64 - 1) (2 ^ 64 - 2) (2 ^ 64 - 1) (bytes "eth0")
      [none, some (sample_dev "10" "20")] (by decide) (by decide) (by decide)).2.1,
    (update_arithmetic_no_wrap (2 ^ 64 - 1) (2 ^ 64 - 2) (2 ^ 64 - 1) (bytes "eth0")
      [none, some (sample_dev "10" "20")] (by decide) (by decide) (by decide)).2.2.2.1,
    by decide,
    (update_arithmetic_no_wrap (2 ^ 64 - 1) (2 ^ 64 - 2) (2 ^ 64 - 1) (bytes "eth0")
      [none, some (sample_dev "10" "20")] (by decide) (by decide) (by decide)).2.2.2.2.2.1⟩

/-! ## The prefix reached by the formatter and the displayed value -/

theorem lnm_print_speed_index (dst : List Nat) (hd : 4 ≤ dst.length) (x : Nat)
    (hx : x < 2 ^ 64) :
    ∃ k, k ≤ 7 ∧ x / 1024 ^ k < 10 ∧ (∀ j, j < k → 10 ≤ x / 1024 ^ j) ∧
      lnm_print_speed dst x =
        [48 + x / 1024 ^ k, 46,
          if k = 0 ∨ x / 1024 ^ (k - 1) % 1024 = 0 then 48
          else 49 + x / 1024 ^ (k - 1) % 1024 / 114,
          prefixes.getD k 0] ++ dst.drop 4 := by
  obtain ⟨k, -, hlt, hmin, heq⟩ := lnm_print_speed_spec dst hd x hx
  refine ⟨k, ?_, hlt, hmin, heq⟩
  by_contra hk
  have h7 := hmin 7 (by omega)
  have : x / 1024 ^ 7 = 0 := Nat.div_eq_of_lt (by norm_num; omega)
  omega

/-- C20: for every unsigned 64-bit `x` the loop of `lnm_print_speed` leaves
through its break at a prefix index of at most 7: all four bytes are written,
the prefix is one of `B K M G T P E Z` and never `Y`; the largest input
`2^64 - 1` is rendered as `0.1Z`. -/
theorem lnm_print_speed_never_yotta (dst : List Nat) (x : Nat) (hd : 4 ≤ dst.length)
    (hx : x < 2 ^ 64) :
    (∃ k d f, k ≤ 7 ∧ x / 1024 ^ k < 10 ∧ (∀ j, j < k → ¬ x / 1024 ^ j < 10) ∧
      lnm_print_speed dst x = [d, 46, f, prefixes.getD k 0] ++ dst.drop 4 ∧
      prefixes.getD k 0 ∈ [66, 75, 77, 71, 84, 80, 69, 90] ∧ prefixes.getD k 0 ≠ 89) ∧
    lnm_print_speed [0, 0, 0, 0] (2 ^ 64 - 1) = bytes "0.1Z" := by
  refine ⟨?_, by decide⟩
  obtain ⟨k, hk, hlt, hmin, heq⟩ := lnm_print_speed_index dst hd x hx
  refine ⟨k, _, _, hk, hlt, fun j hj => Nat.not_lt.mpr (hmin j hj), heq, ?_, ?_⟩
  · interval_cases k <;> decide
  · interval_cases k <;> decide

/-- C20, at a concrete input: `2^64 - 1` written over a buffer of five bytes. -/
theorem lnm_print_speed_never_yotta_witness :
    ∃ k d f, k ≤ 7 ∧ (2 ^ 64 - 1) / 1024 ^ k < 10 ∧
      (∀ j, j < k → ¬ (2 ^ 64 - 1) / 1024 ^ j < 10) ∧
      lnm_print_speed [1, 2, 3, 4, 5] (2 ^ 64 - 1) =
        [d, 46, f, prefixes.getD k 0] ++ [1, 2, 3, 4, 5].drop 4 ∧
      prefixes.getD k 0 ∈ [66, 75, 77, 71, 84, 80, 69, 90] ∧ prefixes.getD k 0 ≠ 89 :=
  (lnm_print_speed_never_yotta [1, 2, 3, 4, 5] (2 ^ 64 - 1) (by decide) (by decide)).1

theorem frac_digit_le (m : Nat) (h : m < 1024) : frac_digit m ≤ 9 := by
  unfold frac_digit
  split <;> omega

theorem div_pow_succ (x k : Nat) : x / 1024 ^ (k + 1) = x / 1024 ^ k / 1024 := by
  rw [Nat.pow_succ, Nat.div_div_eq_div_mul]

theorem tenths_le_same (x y k : Nat) (hxy : x ≤ y) : tenths x k ≤ tenths y k := by
  unfold tenths
  apply Nat.mul_le_mul_right
  cases k with
  | zero =>
    simp only [Nat.pow_zero, Nat.div_one, if_true]
    omega
  | succ k =>
    simp only [Nat.succ_ne_zero, if_false, Nat.add_sub_cancel, div_pow_succ]
    have hab : x / 1024 ^ k ≤ y / 1024 ^ k := Nat.div_le_div_right hxy
    generalize x / 1024 ^ k = a at hab
    generalize y / 1024 ^ k = b at hab
    unfold frac_digit
    split <;> split <;> omega

theorem tenths_le_lower (x k : Nat) (hlt : x / 1024 ^ k < 10) : tenths x k ≤ 99 * 1024 ^ k := by
  unfold tenths
  apply Nat.mul_le_mul_right
  have hf : (if k = 0 then 0 else frac_digit (x / 1024 ^ (k - 1) % 1024)) ≤ 9 := by
    split
    · omega
    · exact frac_digit_le _ (Nat.mod_lt _ (by decide))
  omega

theorem tenths_ge_higher (y k : Nat) (hk : 0 < k) (hmin : 10 ≤ y / 1024 ^ (k - 1)) :
    1024 ^ k ≤ tenths y k := by
  unfold tenths
  obtain ⟨j, rfl⟩ : ∃ j, k = j + 1 := ⟨k - 1, by omega⟩
  simp only [Nat.succ_ne_zero, if_false, Nat.add_sub_cancel, div_pow_succ] at hmin ⊢
  generalize y / 1024 ^ j = b at hmin
  have h1 : 1 ≤ 10 * (b / 1024) + frac_digit (b % 1024) := by
    unfold frac_digit
    split <;> omega
  calc 1024 ^ j * 1024 = 1 * (1024 ^ j * 1024) := (Nat.one_mul _).symm
    _ ≤ (10 * (b / 1024) + frac_digit (b % 1024)) * (1024 ^ j * 1024) :=
        Nat.mul_le_mul_right _ h1

theorem tenths_mono (x y kx ky : Nat) (hxy : x ≤ y)
    (hx : x / 1024 ^ kx < 10) (hminx : ∀ j, j < kx → 10 ≤ x / 1024 ^ j)
    (hy : y / 1024 ^ ky < 10) (hminy : ∀ j, j < ky → 10 ≤ y / 1024 ^ j) :
    tenths x kx ≤ tenths y ky := by
  rcases Nat.lt_trichotomy kx ky with h | h | h
  · have h1 := tenths_le_lower x kx hx
    have h2 := tenths_ge_higher y ky (by omega) (hminy (ky - 1) (by omega))
    have h3 : 99 * 1024 ^ kx ≤ 1024 ^ ky := by
      obtain ⟨d, rfl⟩ : ∃ d, ky = kx + 1 + d := ⟨ky - kx - 1, by omega⟩
      rw [Nat.pow_add, Nat.pow_succ]
      have hpos : 1 ≤ 1024 ^ d := Nat.one_le_pow _ _ (by decide)
      calc 99 * 1024 ^ kx ≤ 1024 ^ kx * 1024 * 1 := by omega
        _ ≤ 1024 ^ kx * 1024 * 1024 ^ d := Nat.mul_le_mul_left _ hpos
    omega
  · subst h
    exact tenths_le_same x y kx hxy
  · have h1 := hminx ky h
    have h2 : x / 1024 ^ ky ≤ y / 1024 ^ ky := Nat.div_le_div_right hxy
    omega

theorem prefixes_indexOf (k : Nat) (hk : k ≤ 7) : prefixes.indexOf (prefixes.getD k 0) = k := by
  interval_cases k <;> rfl

theorem token_value_eq (x k : Nat) (hk : k ≤ 7) :
    token_value ([48 + x / 1024 ^ k, 46,
      if k = 0 ∨ x / 1024 ^ (k - 1) % 1024 = 0 then 48
      else 49 + x / 1024 ^ (k - 1) % 1024 / 114,
      prefixes.getD k 0] ++ List.drop 4 [0, 0, 0, 0]) = (tenths x k : ℚ) / 10 := by
  have hF : (if k = 0 ∨ x / 1024 ^ (k - 1) % 1024 = 0 then 48
      else 49 + x / 1024 ^ (k - 1) % 1024 / 114) - 48 =
      (if k = 0 then 0 else frac_digit (x / 1024 ^ (k - 1) % 1024)) := by
    unfold frac_digit
    generalize x / 1024 ^ (k - 1) % 1024 = m
    split_ifs <;> omega
  show (((48 + x / 1024 ^ k - 48 : Nat) : ℚ) +
    (((if k = 0 ∨ x / 1024 ^ (k - 1) % 1024 = 0 then 48
      else 49 + x / 1024 ^ (k - 1) % 1024 / 114) - 48 : Nat) : ℚ) / 10) *
    1024 ^ (prefixes.indexOf (prefixes.getD k 0)) = _
  rw [prefixes_indexOf k hk, hF, Nat.add_sub_cancel_left, tenths]
  push_cast
  ring

theorem token_value_print_speed (x : Nat) (hx : x < 2 ^ 64) :
    ∃ k, x / 1024 ^ k < 10 ∧ (∀ j, j < k → 10 ≤ x / 1024 ^ j) ∧
      token_value (lnm_print_speed [0, 0, 0, 0] x) = (tenths x k : ℚ) / 10 := by
  obtain ⟨k, hk, hlt, hmin, heq⟩ := lnm_print_speed_index [0, 0, 0, 0] (by decide) x hx
  exact ⟨k, hlt, hmin, by rw [heq, token_value_eq x k hk]⟩

/-- C19: the formatter is monotone: reading the token `D.FP` with prefix index
`k` as the rational `(D + F/10) * 1024^k`, for all unsigned 64-bit `x <= y`
the value displayed for `x` is at most the value displayed for `y`, also across
a change of prefix: 10239 gives `9.9K` and 10240 gives `0.1M`. -/
theorem lnm_print_speed_monotone (x y : Nat) (hxy : x ≤ y) (hy : y < 2 ^ 64) :
    token_value (lnm_print_speed [0, 0, 0, 0] x) ≤
      token_value (lnm_print_speed [0, 0, 0, 0] y) ∧
    lnm_print_speed [0, 0, 0, 0] 10239 = bytes "9.9K" ∧
    lnm_print_speed [0, 0, 0, 0] 10240 = bytes "0.1M" := by
  refine ⟨?_, by decide, by decide⟩
  obtain ⟨kx, hltx, hminx, hvx⟩ := token_value_print_speed x (by omega)
  obtain ⟨ky, hlty, hminy, hvy⟩ := token_value_print_speed y hy
  have hmono := tenths_mono x y kx ky hxy hltx hminx hlty hminy
  rw [hvx, hvy]
  have hq : (tenths x kx : ℚ) ≤ (tenths y ky : ℚ) := by exact_mod_cast hmono
  exact div_le_div_of_nonneg_right hq (by norm_num)

/-- C19, at a concrete input: the pair 10239 and 10240, on the two sides of a
change of prefix. -/
theorem lnm_print_speed_monotone_witness :
    token_value (lnm_print_speed [0, 0, 0, 0] 10239) ≤
      token_value (lnm_print_speed [0, 0, 0, 0] 10240) :=
  (lnm_print_speed_monotone 10239 10240 (by decide) (by decide)).1

end Netmon
